import Mathlib

/-!
# Leonidia: construction of dynamic values from native values

A shallow embedding of `include/leonidia/dynamic/constructors.hpp`.

Every specialisation of the class template `dynamic_constructor` is a conversion rule
with a static member `convert(from, to)`.  A rule that is a template over an element
type `T` is embedded as a function that is polymorphic in `T` and receives the rule
selected for `T` at build time as the argument `conv`; the dispatch itself is static, so
it is the structure of the Lean term.

Conventions of the embedding:
* integers are mathematical (`Nat`, `Int`); the conversions to the 64-bit payload types
  reduce modulo `2 ^ 64` explicitly;
* a `char` is a `Char`, a `std::string` and a `char` buffer are lists of `Char`;
* a `std::vector<T>` and a native array `T[N]` are lists (for `T[N]` the size `N` is a
  separate argument, as it is a separate template parameter);
* a `std::tuple<Args...>` is a list of slots, every slot carrying its static type, the
  rule selected for that type and its value;
* a `std::map<std::string, T>` is the list of its entries in iteration order (ascending
  keys), a `std::unordered_map<std::string, T>` is the list of its entries in its
  (arbitrary) iteration order;
* a function that can fail returns `Except Fault _`;
* the binding of a rule to an owned source (`From&&`) returns the new target together
  with the state in which the source is left;
* the slots of one tuple have their types in one universe (a tuple inside a tuple lives
  one universe higher, its scalar neighbours are lifted);
* `from` and `to` are reserved words of Lean, the parameters are called `from_`, `to_`.
-/

namespace leonidia

universe u v

/-! ## Data model -/

/-- The type `std::string`: a sequence of `char`, compared lexicographically. -/
abbrev string_t := List Char

/-- Payload of the `Double` variant: a 64-bit floating-point value, kept as its bit
pattern.  Floating-point arithmetic is not interpreted. -/
structure double_t where
  bits : Nat

/-- Modelled from the spec: the dynamic value (class `dynamic_t`, declared in
`dynamic.hpp`, which is not among the sources).  A closed tagged union with exactly the
eight variants of the spec; `Array` is an ordered sequence of dynamic values, `Object`
is a mapping from string keys to dynamic values, kept as the list of its entries in
iteration order. -/
inductive dynamic_t where
  | null
  | bool (v : Bool)
  | int (v : Int)
  | uint (v : Nat)
  | double (v : double_t)
  | string (v : string_t)
  | array (v : List dynamic_t)
  | object (v : List (string_t × dynamic_t))

/-- The tags of the eight variants. -/
inductive VariantKind where
  | Null | Bool | Int | UInt | Double | String | Array | Object
  deriving DecidableEq, Repr

/-- What can go wrong: a variant accessor called while another variant is active, an
index outside a sequence, or a program that is rejected at build time. -/
inductive Fault where
  | type_mismatch
  | out_of_range
  | ill_formed
  deriving DecidableEq, Repr

namespace dynamic_t

/-- The type `dynamic_t::array_t`: `std::vector<dynamic_t>`. -/
abbrev array_t := List dynamic_t

/-- The type `dynamic_t::object_t`: `std::map<std::string, dynamic_t>`, entries in
ascending key order. -/
abbrev object_t := List (string_t × dynamic_t)

/-- Modelled from the spec: `active_kind()` reports which variant is live. -/
def active_kind : dynamic_t → VariantKind
  | null => VariantKind.Null
  | bool _ => VariantKind.Bool
  | int _ => VariantKind.Int
  | uint _ => VariantKind.UInt
  | double _ => VariantKind.Double
  | string _ => VariantKind.String
  | array _ => VariantKind.Array
  | object _ => VariantKind.Object

/-- The conversion `dynamic_t::uint_t(from)` of an unsigned value to the unsigned 64-bit
payload type. -/
def uint_t (from_ : Nat) : Nat := from_ % 2 ^ 64

/-- The conversion `dynamic_t::int_t(from)` of an integer value to the signed 64-bit
payload type: the value is reduced modulo `2 ^ 64` into `[-2 ^ 63, 2 ^ 63)`. -/
def int_t (from_ : Int) : Int := (from_ + 2 ^ 63) % 2 ^ 64 - 2 ^ 63

/-- Modelled from the spec: assignment `to = value` replaces the active variant; nothing
of the previous payload is kept. -/
def assign (_to : dynamic_t) (value : dynamic_t) : dynamic_t := value

/-- Modelled from the spec: `as_string()` gives the payload of the `String` variant and
is a type-mismatch fault while another variant is active. -/
def as_string : dynamic_t → Except Fault string_t
  | string v => .ok v
  | _ => .error Fault.type_mismatch

/-- Modelled from the spec: `as_array()` gives the payload of the `Array` variant and is
a type-mismatch fault while another variant is active. -/
def as_array : dynamic_t → Except Fault array_t
  | array v => .ok v
  | _ => .error Fault.type_mismatch

/-- Modelled from the spec: `as_object()` gives the payload of the `Object` variant and
is a type-mismatch fault while another variant is active. -/
def as_object : dynamic_t → Except Fault object_t
  | object v => .ok v
  | _ => .error Fault.type_mismatch

end dynamic_t

open dynamic_t (array_t object_t)

/-- A conversion rule for the source type `From`: the member `convert(from, to)` of the
specialisation of `dynamic_constructor` selected for `From`. -/
abbrev rule_t (From : Type u) := From → dynamic_t → Except Fault dynamic_t

/-- Modelled from the spec: the converting constructor of `dynamic_t` (the operation
`construct` of the dispatcher; it is declared in `dynamic.hpp`, not among the sources).
The new value starts as `Null` and the rule selected for the source type fills it. -/
def construct {From : Type u} (conv : rule_t From) (from_ : From) : Except Fault dynamic_t :=
  conv from_ dynamic_t.null

/-- The call `array.reserve(n)` of `std::vector`: the elements are unchanged. -/
def array_reserve (array : array_t) (_n : Nat) : array_t := array

/-- The call `array.emplace_back(x)` of `std::vector<dynamic_t>`: a dynamic value is
constructed from `x` and appended. -/
def emplace_back {T : Type u} (conv : rule_t T) (array : array_t) (x : T) :
    Except Fault array_t := do
  let d ← construct conv x
  pure (array ++ [d])

/-- The loop `for (size_t i = 0; i < n; ++i) body`, threading the state through. -/
def index_loop {σ : Type u} (n : Nat) (body : Nat → σ → Except Fault σ) (init : σ) :
    Except Fault σ :=
  (List.range n).foldlM (fun s i => body i s) init

/-- The element access `from[i]`; an index outside the sequence is a fault. -/
def subscript {T : Type u} (from_ : List T) (i : Nat) : Except Fault T :=
  match from_[i]? with
  | some x => .ok x
  | none => .error Fault.out_of_range

namespace dynamic_constructor

/-! ## Scalar rules -/

namespace unsigned_integral

/-- Rule for `is_integral<From> && is_unsigned<From>`: `to = dynamic_t::uint_t(from)`. -/
def convert (from_ : Nat) (to_ : dynamic_t) : Except Fault dynamic_t :=
  .ok (to_.assign (dynamic_t.uint (dynamic_t.uint_t from_)))

end unsigned_integral

namespace signed_integral

/-- Rule for `is_integral<From> && is_signed<From>`: `to = dynamic_t::int_t(from)`. -/
def convert (from_ : Int) (to_ : dynamic_t) : Except Fault dynamic_t :=
  .ok (to_.assign (dynamic_t.int (dynamic_t.int_t from_)))

end signed_integral

namespace enumeration

/-- Rule for `is_enum<From>`: `to = dynamic_t::int_t(from)`; `from_` is the value of the
enumerator in the underlying integer type. -/
def convert (from_ : Int) (to_ : dynamic_t) : Except Fault dynamic_t :=
  .ok (to_.assign (dynamic_t.int (dynamic_t.int_t from_)))

end enumeration

namespace floating_point

/-- Rule for `is_floating_point<From>`: `to = dynamic_t::double_t(from)`.  The
conversion of `From` to `double` is the argument `to_double`. -/
def convert {From : Type u} (to_double : From → double_t) (from_ : From) (to_ : dynamic_t) :
    Except Fault dynamic_t :=
  .ok (to_.assign (dynamic_t.double (to_double from_)))

end floating_point

namespace char_array

/-- The call `s.assign(from, count)` of `std::string`: `s` becomes the first `count`
characters of the buffer `from`; reading beyond the buffer is a fault. -/
def string_assign (_s : string_t) (from_ : List Char) (count : Nat) : Except Fault string_t :=
  if count ≤ from_.length then .ok (from_.take count) else .error Fault.out_of_range

/-- The value of `N - 1` in `size_t`, for `N` a `size_t`: `0 - 1` wraps around. -/
def size_t_pred (N : Nat) : Nat := if N = 0 then 2 ^ 64 - 1 else N - 1

/-- Rule for `char[N]`: `to = dynamic_t::string_t(); to.as_string().assign(from, N - 1)`. -/
def convert (N : Nat) (from_ : List Char) (to_ : dynamic_t) : Except Fault dynamic_t := do
  let to_ := to_.assign (dynamic_t.string [])
  let s ← to_.as_string
  let s ← string_assign s from_ (size_t_pred N)
  pure (dynamic_t.string s)

end char_array

/-! ## Sequence rules -/

namespace vector

/-- Rule for `std::vector<T>`, `T` not `dynamic_t`, borrowed source:
the target becomes an empty array, capacity is reserved, and the elements are appended
by index. -/
def convert {T : Type u} (conv : rule_t T) (from_ : List T) (to_ : dynamic_t) :
    Except Fault dynamic_t := do
  let to_ := to_.assign (dynamic_t.array [])
  let array ← to_.as_array
  let array := array_reserve array from_.length
  let array ← index_loop from_.length
    (fun i array =>
      match subscript from_ i with
      | .ok x => emplace_back conv array x
      | .error e => .error e) array
  pure (dynamic_t.array array)

end vector

namespace native_array

/-- Rule for `T[N]`, borrowed source: as for `std::vector<T>`, with the static size
`N` in place of `from.size()`. -/
def convert {T : Type u} (N : Nat) (conv : rule_t T) (from_ : List T) (to_ : dynamic_t) :
    Except Fault dynamic_t := do
  let to_ := to_.assign (dynamic_t.array [])
  let array ← to_.as_array
  let array := array_reserve array N
  let array ← index_loop N
    (fun i array =>
      match subscript from_ i with
      | .ok x => emplace_back conv array x
      | .error e => .error e) array
  pure (dynamic_t.array array)

end native_array

/-! ## Tuple rule -/

/-- A slot of a `std::tuple<Args...>`: its static type, the rule selected for that type
at build time, and its value. -/
structure slot_t where
  T : Type u
  conv : rule_t T
  value : T

namespace tuple

/-- The access `std::get<I - 1>(from)`.  The index is a build-time constant: `I = 0`
(where `I - 1` wraps around in `size_t`) and an index beyond the last slot are rejected
at build time. -/
def get_slot (I : Nat) (from_ : List slot_t) : Except Fault slot_t :=
  if I = 0 then .error Fault.ill_formed
  else match from_[I - 1]? with
    | some s => .ok s
    | none => .error Fault.ill_formed

/-- The static recursion `copy_tuple_to_vector<N, I, Args2...>::convert(from, to)`.
The specialisation `<0, 1, Args2...>` does nothing, the specialisation
`<N, N, Args2...>` appends slot `N - 1`, the primary template appends slot `I - 1` and
continues with `I + 1`. -/
def copy_tuple_to_vector (N I : Nat) (from_ : List slot_t) (to_ : array_t) :
    Except Fault array_t :=
  if N = 0 ∧ I = 1 then .ok to_
  else if I = N then
    match get_slot N from_ with
    | .ok s => emplace_back s.conv to_ s.value
    | .error e => .error e
  else
    match hs : get_slot I from_ with
    | .ok s =>
      match emplace_back s.conv to_ s.value with
      | .ok to_ =>
        have : from_.length + 1 - (I + 1) < from_.length + 1 - I := by
          unfold get_slot at hs
          split at hs
          · cases hs
          · split at hs
            · rename_i hget
              have := (List.getElem?_eq_some.mp hget).1
              omega
            · cases hs
        copy_tuple_to_vector N (I + 1) from_ to_
      | .error e => .error e
    | .error e => .error e
termination_by from_.length + 1 - I

/-- Rule for `std::tuple<Args...>`, borrowed source; `sizeof...(Args)` is the number of
slots. -/
def convert (from_ : List slot_t) (to_ : dynamic_t) : Except Fault dynamic_t := do
  let to_ := to_.assign (dynamic_t.array [])
  let array ← to_.as_array
  let array := array_reserve array from_.length
  let array ← copy_tuple_to_vector from_.length 1 from_ array
  pure (dynamic_t.array array)

end tuple

/-! ## Mapping rules -/

/-- The call `object.insert(value)` of `std::map<std::string, dynamic_t>`: the entry is
put at its place in key order; when the key is already present the map is unchanged. -/
def object_insert (object : object_t) (value : string_t × dynamic_t) : object_t :=
  match object with
  | [] => [value]
  | e :: rest =>
    if value.1 < e.1 then value :: e :: rest
    else if e.1 < value.1 then e :: object_insert rest value
    else e :: rest

/-- The entry `dynamic_t::object_t::value_type(key, x)`: the pair of the key and the
dynamic value constructed from `x`. -/
def value_type {T : Type u} (conv : rule_t T) (key : string_t) (x : T) :
    Except Fault (string_t × dynamic_t) := do
  let d ← construct conv x
  pure (key, d)

/-- Modelled from the spec: the two-argument call `object.insert(key, x)` of
`dynamic_t::object_t` (declared in `dynamic.hpp`, not among the sources; `std::map` has
no such member).  The spec makes the hash-ordered rule the same conversion as the
key-ordered rule: the entry `(key, construct(x))` is inserted by key. -/
def object_insert_key_value {T : Type u} (conv : rule_t T) (object : object_t) (key : string_t)
    (x : T) : Except Fault object_t := do
  let value ← value_type conv key x
  pure (object_insert object value)

namespace map_dynamic

/-- Rule for `std::map<std::string, dynamic_t>`:
`to = dynamic_t::object_t(std::forward<Object>(from))`. -/
def convert (from_ : object_t) (to_ : dynamic_t) : Except Fault dynamic_t :=
  .ok (to_.assign (dynamic_t.object from_))

end map_dynamic

namespace map

/-- Rule for `std::map<std::string, T>`, `T` not `dynamic_t`, borrowed source: the
target becomes an empty object and every entry of the source, in iteration order, is
inserted. -/
def convert {T : Type u} (conv : rule_t T) (from_ : List (string_t × T)) (to_ : dynamic_t) :
    Except Fault dynamic_t := do
  let to_ := to_.assign (dynamic_t.object [])
  let object ← to_.as_object
  let object ← from_.foldlM
    (fun object it => do pure (object_insert object (← value_type conv it.1 it.2))) object
  pure (dynamic_t.object object)

end map

namespace unordered_map

/-- Rule for `std::unordered_map<std::string, T>`, borrowed source: the target becomes
an empty object and every entry of the source, in iteration order, is inserted with
`object.insert(it->first, it->second)`. -/
def convert {T : Type u} (conv : rule_t T) (from_ : List (string_t × T)) (to_ : dynamic_t) :
    Except Fault dynamic_t := do
  let to_ := to_.assign (dynamic_t.object [])
  let object ← to_.as_object
  let object ← from_.foldlM
    (fun object it => object_insert_key_value conv object it.1 it.2) object
  pure (dynamic_t.object object)

end unordered_map

/-- The invariant of a `std::map<std::string, T>`: iteration visits the entries in
strictly ascending key order (so the keys are unique). -/
def map_invariant {T : Type u} (from_ : List (string_t × T)) : Prop :=
  from_.Pairwise (fun a b => a.1 < b.1)

/-- The invariant of a `std::unordered_map<std::string, T>`: the keys are unique; the
iteration order is arbitrary. -/
def unordered_map_invariant {T : Type u} (from_ : List (string_t × T)) : Prop :=
  (from_.map Prod.fst).Nodup

/-- The value held by a result, `Null` when there is none; used to name the value
that a successful conversion gives. -/
def value_or_null (r : Except Fault dynamic_t) : dynamic_t :=
  match r with
  | .ok v => v
  | .error _ => dynamic_t.null

/-! ## Totality and losslessness of a rule -/

/-- The rule `conv` is total and lossless on the source values satisfying `S`:
`construct` gives a value for each of them, and two of them that convert to equal
dynamic values are the same source value, in the sense of the relation `same`. -/
def lossless {From : Type u} (conv : rule_t From) (S : From → Prop)
    (same : From → From → Prop) : Prop :=
  (∀ x, S x → ∃ v, construct conv x = .ok v) ∧
  (∀ x y, S x → S y → construct conv x = construct conv y → same x y)

/-- Two mappings hold the same entries: every entry of one has an entry of the other
with the same key and the same value. -/
def same_entries {T : Type u} (same : T → T → Prop) (m1 m2 : List (string_t × T)) : Prop :=
  (∀ e1 ∈ m1, ∃ e2 ∈ m2, e1.1 = e2.1 ∧ same e1.2 e2.2) ∧
  (∀ e2 ∈ m2, ∃ e1 ∈ m1, e1.1 = e2.1 ∧ same e1.2 e2.2)

/-- The static type of a tuple slot: the type, the rule selected for it, its values and
when two of its values are the same. -/
structure slot_type where
  T : Type u
  conv : rule_t T
  S : T → Prop
  same : T → T → Prop

/-- The slot holds a value of the slot type. -/
def slot_has_type (s : slot_t) (σ : slot_type) : Prop :=
  ∃ x : σ.T, σ.S x ∧ s = ⟨σ.T, σ.conv, x⟩

/-- Two slots of a slot type hold the same value. -/
def slot_same (σ : slot_type) (s1 s2 : slot_t) : Prop :=
  ∃ x y : σ.T, σ.same x y ∧ s1 = ⟨σ.T, σ.conv, x⟩ ∧ s2 = ⟨σ.T, σ.conv, y⟩

/-- Two tuples of a tuple type hold the same values, slot by slot. -/
def tuple_same : List slot_type → List slot_t → List slot_t → Prop
  | [], [], [] => True
  | σ :: σs, s1 :: t1, s2 :: t2 => slot_same σ s1 s2 ∧ tuple_same σs t1 t2
  | _, _, _ => False

/-! ## Source types and rule predicates -/

/-- An integral type (`bool`, `char`, `short`, `unsigned long`, ...), described by what
the rule predicates inspect: whether it is the type `char`, whether `std::is_signed`
holds for it, and its width in bits. -/
structure integral_type where
  is_char : Bool
  is_signed : Bool
  bits : Nat
  deriving DecidableEq, Repr

/-- The values of an integral type. -/
def integral_type.in_range (t : integral_type) (v : Int) : Prop :=
  if t.is_signed then -(2 ^ (t.bits - 1)) ≤ v ∧ v < 2 ^ (t.bits - 1)
  else 0 ≤ v ∧ v < 2 ^ t.bits

/-- The shape of a source type, as far as the predicates of the rules look at it. -/
inductive source_type where
  | integral (t : integral_type)
  | enumeration (underlying : integral_type)
  | floating_point (bits : Nat)
  | native_array (T : source_type) (N : Nat)
  | vector (T : source_type)
  | tuple (Args : List source_type)
  | map (T : source_type)
  | unordered_map (T : source_type)
  | dynamic
  | other (name : Nat)

namespace source_type

/-- The trait `std::is_integral<T>`. -/
def is_integral : source_type → Bool
  | integral _ => true
  | _ => false

/-- The trait `std::is_unsigned<T>`: an arithmetic type with `T(0) < T(-1)`. -/
def is_unsigned : source_type → Bool
  | integral t => !t.is_signed
  | _ => false

/-- The trait `std::is_signed<T>`: an arithmetic type with `T(-1) < T(0)`. -/
def is_signed : source_type → Bool
  | integral t => t.is_signed
  | floating_point _ => true
  | _ => false

/-- The trait `std::is_enum<T>`. -/
def is_enum : source_type → Bool
  | enumeration _ => true
  | _ => false

/-- The trait `std::is_floating_point<T>`. -/
def is_floating_point : source_type → Bool
  | floating_point _ => true
  | _ => false

/-- The trait `std::is_same<T, dynamic_t>`. -/
def is_same_dynamic : source_type → Bool
  | dynamic => true
  | _ => false

/-- Whether the type is `char[N]` for some `N`. -/
def is_char_array : source_type → Bool
  | native_array (integral t) _ => t.is_char
  | _ => false

end source_type

/-- The specialisations of `dynamic_constructor` in `constructors.hpp`. -/
inductive rule where
  | unsigned_integral
  | signed_integral
  | enumeration
  | floating_point
  | char_array
  | vector
  | native_array
  | tuple
  | map_dynamic
  | map
  | unordered_map
  deriving DecidableEq, Repr

/-- Whether the specialisation matches the source type: its template argument pattern
fits and its `enable_if` condition holds. -/
def rule_matches : rule → source_type → Bool
  | rule.unsigned_integral, T => T.is_integral && T.is_unsigned
  | rule.signed_integral, T => T.is_integral && T.is_signed
  | rule.enumeration, T => T.is_enum
  | rule.floating_point, T => T.is_floating_point
  | rule.char_array, T => T.is_char_array
  | rule.vector, source_type.vector T => !T.is_same_dynamic
  | rule.native_array, source_type.native_array _ _ => true
  | rule.tuple, source_type.tuple _ => true
  | rule.map_dynamic, source_type.map T => T.is_same_dynamic
  | rule.map, source_type.map T => !T.is_same_dynamic
  | rule.unordered_map, source_type.unordered_map _ => true
  | _, _ => false

/-- Modelled from the spec: `construct` applied to a value `v` of the integral type `t`.
The dispatcher invokes the rule whose predicate matches: the signed-integral rule when
`std::is_signed` holds, the unsigned-integral rule otherwise. -/
def construct_integral (t : integral_type) (v : Int) : Except Fault dynamic_t :=
  if t.is_signed then construct signed_integral.convert v
  else construct unsigned_integral.convert v.toNat

/-- Modelled from the spec: `construct` applied to an enumerator whose value in the
underlying integer type is `v`; enumeration types match the enumeration rule only. -/
def construct_enumeration (_underlying : integral_type) (v : Int) : Except Fault dynamic_t :=
  construct enumeration.convert v

/-! ## Owned sources -/

/-- The binding of a conversion rule to an owned source, `convert(From&& from, to)`:
the result is the new target together with the state in which the source is left. -/
abbrev move_rule_t (From : Type u) := From → dynamic_t → Except Fault (dynamic_t × From)

/-- Modelled from the spec: the converting constructor of `dynamic_t` applied to an
owned source (declared in `dynamic.hpp`, not among the sources).  The new value starts
as `Null` and the owned binding of the rule selected for the source type fills it. -/
def construct_move {From : Type u} (mconv : move_rule_t From) (from_ : From) :
    Except Fault (dynamic_t × From) :=
  mconv from_ dynamic_t.null

/-- The owned binding of a rule whose single `convert` takes its source by value or by
reference to const (the scalar rules and the character buffer rule): the value is
copied and the source is left as it was. -/
def by_value {From : Type u} (conv : rule_t From) : move_rule_t From :=
  fun from_ to_ =>
    match conv from_ to_ with
    | .ok d => .ok (d, from_)
    | .error e => .error e

/-- The call `array.emplace_back(std::move(x))`: a dynamic value is constructed from
the owned `x` and appended; the second component is what is left of `x`. -/
def emplace_back_move {T : Type u} (mconv : move_rule_t T) (array : array_t) (x : T) :
    Except Fault (array_t × T) :=
  match construct_move mconv x with
  | .ok (d, x) => .ok (array ++ [d], x)
  | .error e => .error e

/-- The statement `array.emplace_back(std::move(from[i]))` on the pair of the array
and the source sequence: element `i` of the source is replaced by what the move leaves
of it. -/
def emplace_back_move_at {T : Type u} (mconv : move_rule_t T) (i : Nat)
    (state : array_t × List T) : Except Fault (array_t × List T) :=
  match subscript state.2 i with
  | .ok x =>
    match emplace_back_move mconv state.1 x with
    | .ok (array, x) => .ok (array, state.2.set i x)
    | .error e => .error e
  | .error e => .error e

namespace map_dynamic

/-- Rule for `std::map<std::string, dynamic_t>`, owned source: the same member
template, `to = dynamic_t::object_t(std::forward<Object>(from))`, instantiated for an
rvalue; the mapping is moved into the target as a whole and the source is left empty. -/
def convert_move (from_ : object_t) (to_ : dynamic_t) : Except Fault (dynamic_t × object_t) :=
  .ok (to_.assign (dynamic_t.object from_), [])

end map_dynamic

namespace vector

/-- Rule for `std::vector<T>`, `T` not `dynamic_t`, owned source: as the borrowed
binding, with every element moved into the array.  Moving an element does not change
`from.size()`. -/
def convert_move {T : Type u} (mconv : move_rule_t T) (from_ : List T) (to_ : dynamic_t) :
    Except Fault (dynamic_t × List T) :=
  let to_ := to_.assign (dynamic_t.array [])
  match to_.as_array with
  | .ok array =>
    let array := array_reserve array from_.length
    match index_loop from_.length (emplace_back_move_at mconv) (array, from_) with
    | .ok (array, from_) => .ok (dynamic_t.array array, from_)
    | .error e => .error e
  | .error e => .error e

end vector

namespace native_array

/-- Rule for `T[N]`, owned source: as for `std::vector<T>`, with the static size `N`. -/
def convert_move {T : Type u} (N : Nat) (mconv : move_rule_t T) (from_ : List T)
    (to_ : dynamic_t) : Except Fault (dynamic_t × List T) :=
  let to_ := to_.assign (dynamic_t.array [])
  match to_.as_array with
  | .ok array =>
    let array := array_reserve array N
    match index_loop N (emplace_back_move_at mconv) (array, from_) with
    | .ok (array, from_) => .ok (dynamic_t.array array, from_)
    | .error e => .error e
  | .error e => .error e

end native_array

/-- A slot of an owned `std::tuple<Args...>`: its static type, the two bindings of the
rule selected for that type, and its value. -/
structure owned_slot_t where
  T : Type u
  conv : rule_t T
  mconv : move_rule_t T
  value : T

/-- The same slot seen through a reference to const. -/
def owned_slot_t.borrow (s : owned_slot_t.{u}) : slot_t.{u} := ⟨s.T, s.conv, s.value⟩

namespace tuple

/-- The access `std::get<I - 1>(from)` on an owned tuple. -/
def get_owned_slot (I : Nat) (from_ : List owned_slot_t) : Except Fault owned_slot_t :=
  if I = 0 then .error Fault.ill_formed
  else match from_[I - 1]? with
    | some s => .ok s
    | none => .error Fault.ill_formed

/-- The statement `to.emplace_back(std::move(std::get<I - 1>(from)))` on the pair of
the array and the tuple: slot `I - 1` is replaced by what the move leaves of it. -/
def emplace_back_move_slot (I : Nat) (state : array_t × List owned_slot_t) :
    Except Fault (array_t × List owned_slot_t) :=
  match get_owned_slot I state.2 with
  | .ok s =>
    match emplace_back_move s.mconv state.1 s.value with
    | .ok (to_, x) => .ok (to_, state.2.set (I - 1) ⟨s.T, s.conv, s.mconv, x⟩)
    | .error e => .error e
  | .error e => .error e

/-- The static recursion `move_tuple_to_vector<N, I, Args2...>::convert(from, to)`, on
the pair of the array and the tuple; the three specialisations are those of
`copy_tuple_to_vector`. -/
def move_tuple_to_vector (N I : Nat) (state : array_t × List owned_slot_t) :
    Except Fault (array_t × List owned_slot_t) :=
  if N = 0 ∧ I = 1 then .ok state
  else if I = N then emplace_back_move_slot N state
  else
    match hs : emplace_back_move_slot I state with
    | .ok next =>
      have : next.2.length + 1 - (I + 1) < state.2.length + 1 - I := by
        unfold emplace_back_move_slot get_owned_slot at hs
        split at hs
        · rename_i s hget
          split at hget
          · cases hget
          · split at hget
            · rename_i hsome
              have hlt := (List.getElem?_eq_some.mp hsome).1
              split at hs
              · cases hs
                simp only [List.length_set]
                omega
              · cases hs
            · cases hget
        · cases hs
      move_tuple_to_vector N (I + 1) next
    | .error e => .error e
termination_by state.2.length + 1 - I

/-- Rule for `std::tuple<Args...>`, owned source. -/
def convert_move (from_ : List owned_slot_t) (to_ : dynamic_t) :
    Except Fault (dynamic_t × List owned_slot_t) :=
  let to_ := to_.assign (dynamic_t.array [])
  match to_.as_array with
  | .ok array =>
    let array := array_reserve array from_.length
    match move_tuple_to_vector from_.length 1 (array, from_) with
    | .ok (array, from_) => .ok (dynamic_t.array array, from_)
    | .error e => .error e
  | .error e => .error e

end tuple

/-- The entry `dynamic_t::object_t::value_type(key, std::move(x))`, with what the move
leaves of `x`. -/
def value_type_move {T : Type u} (mconv : move_rule_t T) (key : string_t) (x : T) :
    Except Fault ((string_t × dynamic_t) × T) :=
  match construct_move mconv x with
  | .ok (d, x) => .ok ((key, d), x)
  | .error e => .error e

/-- Modelled from the spec: the two-argument call `object.insert(key, std::move(x))` of
`dynamic_t::object_t`, as `object_insert_key_value` for an owned value. -/
def object_insert_key_value_move {T : Type u} (mconv : move_rule_t T) (object : object_t)
    (key : string_t) (x : T) : Except Fault (object_t × T) :=
  match value_type_move mconv key x with
  | .ok (value, x) => .ok (object_insert object value, x)
  | .error e => .error e

namespace map

/-- The body of the loop of the owned binding: the entry is inserted with its value
moved, `object.insert(value_type(it->first, std::move(it->second)))`; the state is the
object together with the entries visited so far, as the moves have left them. -/
def move_step {T : Type u} (mconv : move_rule_t T) (state : object_t × List (string_t × T))
    (it : string_t × T) : Except Fault (object_t × List (string_t × T)) :=
  match value_type_move mconv it.1 it.2 with
  | .ok (value, x) => .ok (object_insert state.1 value, state.2 ++ [(it.1, x)])
  | .error e => .error e

/-- Rule for `std::map<std::string, T>`, `T` not `dynamic_t`, owned source: every entry,
in iteration order, is inserted with its value moved. -/
def convert_move {T : Type u} (mconv : move_rule_t T) (from_ : List (string_t × T))
    (to_ : dynamic_t) : Except Fault (dynamic_t × List (string_t × T)) :=
  let to_ := to_.assign (dynamic_t.object [])
  match to_.as_object with
  | .ok object =>
    match from_.foldlM (move_step mconv) (object, []) with
    | .ok (object, from_) => .ok (dynamic_t.object object, from_)
    | .error e => .error e
  | .error e => .error e

end map

namespace unordered_map

/-- The body of the loop of the owned binding:
`object.insert(it->first, std::move(it->second))`. -/
def move_step {T : Type u} (mconv : move_rule_t T) (state : object_t × List (string_t × T))
    (it : string_t × T) : Except Fault (object_t × List (string_t × T)) :=
  match object_insert_key_value_move mconv state.1 it.1 it.2 with
  | .ok (object, x) => .ok (object, state.2 ++ [(it.1, x)])
  | .error e => .error e

/-- Rule for `std::unordered_map<std::string, T>`, owned source: every entry, in
iteration order, is inserted with its value moved. -/
def convert_move {T : Type u} (mconv : move_rule_t T) (from_ : List (string_t × T))
    (to_ : dynamic_t) : Except Fault (dynamic_t × List (string_t × T)) :=
  let to_ := to_.assign (dynamic_t.object [])
  match to_.as_object with
  | .ok object =>
    match from_.foldlM (move_step mconv) (object, []) with
    | .ok (object, from_) => .ok (dynamic_t.object object, from_)
    | .error e => .error e
  | .error e => .error e

end unordered_map

/-- The two bindings of a rule agree on the source values satisfying `S`: the owned
binding gives the dynamic value that the borrowed binding gives. -/
def bindings_agree {From : Type u} (conv : rule_t From) (mconv : move_rule_t From)
    (S : From → Prop) : Prop :=
  ∀ x, S x → ∃ (v : dynamic_t) (r : From),
    construct_move mconv x = .ok (v, r) ∧ construct conv x = .ok v

/-- The value of the dynamic value that the owned binding constructs from `x`, `Null`
when there is none. -/
def moved_value {From : Type u} (mconv : move_rule_t From) (x : From) : dynamic_t :=
  match construct_move mconv x with
  | .ok (v, _) => v
  | .error _ => dynamic_t.null

/-- The state in which the owned binding leaves the source `x`; `x` itself when the
conversion fails. -/
def moved_from {From : Type u} (mconv : move_rule_t From) (x : From) : From :=
  match construct_move mconv x with
  | .ok (_, r) => r
  | .error _ => x

/-- The slot as a move of its value leaves it. -/
def owned_slot_t.moved_from (s : owned_slot_t.{u}) : owned_slot_t.{u} :=
  ⟨s.T, s.conv, s.mconv, leonidia.dynamic_constructor.moved_from s.mconv s.value⟩

/-! ## The static recursion over the slots of a tuple -/

/-- The members of the family `copy_tuple_to_vector<N, I, ...>` (and of
`move_tuple_to_vector<N, I, ...>`): the primary template at `<N, I>`, the
specialisation `<N, N>` and the specialisation `<0, 1>`. -/
inductive specialisation where
  | primary (N I : Nat)
  | last (N : Nat)
  | empty
  deriving DecidableEq, Repr

/-- The index `I` at which a member of the family is instantiated. -/
def specialisation.index : specialisation → Nat
  | primary _ I => I
  | last N => N
  | empty => 1

/-- The recursion scheme shared by `copy_tuple_to_vector` and `move_tuple_to_vector`,
recording the members of the family that are entered.  `step I` is the statement
`to.emplace_back(std::get<I - 1>(from))` (with or without `std::move`) and `size` is the
number of slots of the tuple: `std::get<I - 1>` is rejected for `I = 0` and for
`I > size`. -/
def static_recursion {σ : Type u} (N I size : Nat) (step : Nat → σ → Except Fault σ)
    (state : σ) : List specialisation × Except Fault σ :=
  if N = 0 ∧ I = 1 then ([specialisation.empty], .ok state)
  else if I = N then ([specialisation.last N], step N state)
  else if I = 0 ∨ size < I then ([specialisation.primary N I], .error Fault.ill_formed)
  else
    match step I state with
    | .ok next =>
      let rest := static_recursion N (I + 1) size step next
      (specialisation.primary N I :: rest.1, rest.2)
    | .error e => ([specialisation.primary N I], .error e)
termination_by size + 1 - I
decreasing_by omega

/-- The statement `to.emplace_back(std::get<I - 1>(from))` of `copy_tuple_to_vector`. -/
def tuple.emplace_back_slot (from_ : List slot_t) (I : Nat) (to_ : array_t) :
    Except Fault array_t :=
  match tuple.get_slot I from_ with
  | .ok s => emplace_back s.conv to_ s.value
  | .error e => .error e

/-! ## The type `bool` -/

/-- The type `bool`: an integral type that is not `char`, for which `std::is_signed`
does not hold, stored in 8 bits. -/
def bool_type : source_type := source_type.integral ⟨false, false, 8⟩

/-- The value of a `bool` as an integer: `false` is `0`, `true` is `1`. -/
def bool_value (b : Bool) : Nat := if b then 1 else 0

/-- The rule always produces the variant `K`: every value it gives has the active kind
`K`, and it gives a value for every source satisfying `S`, whatever the prior state of
the target. -/
def produces {From : Type u} (conv : rule_t From) (S : From → Prop) (K : VariantKind) :
    Prop :=
  (∀ x to_ d, conv x to_ = .ok d → d.active_kind = K) ∧
  (∀ x to_, S x → ∃ d, conv x to_ = .ok d)

/-- The owned binding of a rule only produces the variant `K`. -/
def produces_move {From : Type u} (mconv : move_rule_t From) (K : VariantKind) : Prop :=
  ∀ x to_ d r, mconv x to_ = .ok (d, r) → d.active_kind = K

/-! ## Auxiliary facts -/

theorem bind_ok {α β : Type u} (a : α) (f : α → Except Fault β) :
    ((Except.ok a : Except Fault α) >>= f) = f a := rfl

theorem index_loop_succ {σ : Type u} (n : Nat) (body : Nat → σ → Except Fault σ) (init : σ) :
    index_loop (n + 1) body init = (index_loop n body init >>= body n) := by
  simp [index_loop, List.range_succ, List.foldlM_append]

theorem subscript_of_lt {T : Type u} (from_ : List T) (i : Nat) (h : i < from_.length) :
    subscript from_ i = .ok from_[i] := by
  simp [subscript, List.getElem?_eq_getElem h]

theorem emplace_back_ok {T : Type u} (conv : rule_t T) (array : array_t) (x : T)
    (d : dynamic_t) (h : construct conv x = .ok d) :
    emplace_back conv array x = .ok (array ++ [d]) := by
  unfold emplace_back
  rw [h, bind_ok]
  rfl

/-- The element loop of the sequence rules, run for the first `k` indices, appends the
constructed values of the first `k` elements. -/
theorem index_loop_emplace_back {T : Type u} (conv : rule_t T) (d : T → dynamic_t)
    (from_ : List T) (hconv : ∀ x ∈ from_, construct conv x = .ok (d x)) (init : array_t) :
    ∀ k, k ≤ from_.length →
      index_loop k
          (fun i array =>
            match subscript from_ i with
            | .ok x => emplace_back conv array x
            | .error e => .error e) init
        = .ok (init ++ (from_.take k).map d) := by
  intro k
  induction k with
  | zero => intro _; simp [index_loop, pure, Except.pure]
  | succ k ih =>
    intro hk
    have hlt : k < from_.length := hk
    rw [index_loop_succ, ih (Nat.le_of_lt hlt), bind_ok]
    have hx := hconv from_[k] (List.getElem_mem hlt)
    simp only [subscript_of_lt from_ k hlt]
    rw [emplace_back_ok conv _ _ _ hx]
    rw [List.take_succ, List.getElem?_eq_getElem hlt]
    simp only [Option.toList, List.map_append, List.map, List.append_assoc]

theorem vector_convert_eq {T : Type u} (conv : rule_t T) (d : T → dynamic_t)
    (from_ : List T) (hconv : ∀ x ∈ from_, construct conv x = .ok (d x)) (to_ : dynamic_t) :
    vector.convert conv from_ to_ = .ok (dynamic_t.array (from_.map d)) := by
  unfold vector.convert
  simp only [dynamic_t.assign, dynamic_t.as_array, array_reserve, bind_ok]
  rw [index_loop_emplace_back conv d from_ hconv [] from_.length (Nat.le_refl _), bind_ok]
  simp [pure, Except.pure]

theorem native_array_convert_eq {T : Type u} (conv : rule_t T) (d : T → dynamic_t)
    (from_ : List T) (hconv : ∀ x ∈ from_, construct conv x = .ok (d x)) (to_ : dynamic_t) :
    native_array.convert from_.length conv from_ to_ = .ok (dynamic_t.array (from_.map d)) := by
  unfold native_array.convert
  simp only [dynamic_t.assign, dynamic_t.as_array, array_reserve, bind_ok]
  rw [index_loop_emplace_back conv d from_ hconv [] from_.length (Nat.le_refl _), bind_ok]
  simp [pure, Except.pure]

theorem get_slot_of_le (I : Nat) (from_ : List slot_t) (h1 : 1 ≤ I)
    (hlt : I - 1 < from_.length) :
    tuple.get_slot I from_ = .ok from_[I - 1] := by
  have h0 : I ≠ 0 := by omega
  simp [tuple.get_slot, h0, List.getElem?_eq_getElem hlt]

theorem copy_tuple_to_vector_zero (from_ : List slot_t) (acc : array_t) :
    tuple.copy_tuple_to_vector 0 1 from_ acc = .ok acc := by
  rw [tuple.copy_tuple_to_vector]
  simp

/-- The static recursion started at index `I` appends the constructed values of the
slots `I - 1`, ..., `N - 1`, in this order. -/
theorem copy_tuple_to_vector_eq (d : slot_t → dynamic_t) (from_ : List slot_t)
    (hconv : ∀ s ∈ from_, construct s.conv s.value = .ok (d s)) :
    ∀ (m I : Nat) (acc : array_t), 1 ≤ I → I ≤ from_.length → m = from_.length - I →
      tuple.copy_tuple_to_vector from_.length I from_ acc
        = .ok (acc ++ (from_.drop (I - 1)).map d) := by
  intro m
  induction m with
  | zero =>
    intro I acc h1 h2 hm
    have hI : I = from_.length := by omega
    subst hI
    have hlt : from_.length - 1 < from_.length := by omega
    rw [tuple.copy_tuple_to_vector]
    have hne : ¬ (from_.length = 0 ∧ from_.length = 1) := by omega
    simp only [hne, if_false, if_true]
    rw [get_slot_of_le _ from_ h1 hlt]
    simp only []
    rw [emplace_back_ok _ _ _ _ (hconv _ (List.getElem_mem hlt))]
    rw [List.drop_eq_getElem_cons hlt]
    have : from_.length - 1 + 1 = from_.length := by omega
    simp [this]
  | succ m ih =>
    intro I acc h1 h2 hm
    have hlt : I - 1 < from_.length := by omega
    have hne : ¬ (from_.length = 0 ∧ I = 1) := by omega
    have hne2 : ¬ (I = from_.length) := by omega
    rw [tuple.copy_tuple_to_vector]
    simp only [hne, hne2, if_false]
    split
    · rename_i s hs
      rw [get_slot_of_le _ from_ h1 hlt] at hs
      cases hs
      split
      · rename_i to2 hto
        rw [emplace_back_ok _ _ _ _ (hconv _ (List.getElem_mem hlt))] at hto
        cases hto
        rw [ih (I + 1) _ (by omega) (by omega) (by omega)]
        rw [List.drop_eq_getElem_cons hlt]
        have : I - 1 + 1 = I + 1 - 1 := by omega
        simp [this]
      · rename_i e hto
        rw [emplace_back_ok _ _ _ _ (hconv _ (List.getElem_mem hlt))] at hto
        cases hto
    · rename_i e hs
      rw [get_slot_of_le _ from_ h1 hlt] at hs
      cases hs

theorem tuple_convert_eq (d : slot_t → dynamic_t) (from_ : List slot_t)
    (hconv : ∀ s ∈ from_, construct s.conv s.value = .ok (d s)) (to_ : dynamic_t) :
    tuple.convert from_ to_ = .ok (dynamic_t.array (from_.map d)) := by
  unfold tuple.convert
  simp only [dynamic_t.assign, dynamic_t.as_array, array_reserve, bind_ok]
  rcases Nat.eq_zero_or_pos from_.length with h0 | hpos
  · have hnil : from_ = [] := List.length_eq_zero.mp h0
    subst hnil
    simp only [List.length_nil]
    rw [copy_tuple_to_vector_zero, bind_ok]
    simp [pure, Except.pure]
  · rw [copy_tuple_to_vector_eq d from_ hconv (from_.length - 1) 1 [] (Nat.le_refl 1) hpos rfl,
      bind_ok]
    simp [pure, Except.pure]

theorem value_type_ok {T : Type u} (conv : rule_t T) (key : string_t) (x : T) (d : dynamic_t)
    (h : construct conv x = .ok d) : value_type conv key x = .ok (key, d) := by
  unfold value_type
  rw [h, bind_ok]
  rfl

/-- Inserting an entry whose key is above every key of the object appends it. -/
theorem object_insert_append (object : object_t) (value : string_t × dynamic_t)
    (h : ∀ e ∈ object, e.1 < value.1) : object_insert object value = object ++ [value] := by
  induction object with
  | nil => rfl
  | cons e rest ih =>
    have he : e.1 < value.1 := h e (List.mem_cons_self _ _)
    have hn : ¬ value.1 < e.1 := not_lt_of_gt he
    simp only [object_insert, hn, he, if_false, if_true, List.cons_append]
    rw [ih (fun e' he' => h e' (List.mem_cons_of_mem _ he'))]

/-- Inserting an entry with a new key gives a rearrangement of the entries. -/
theorem object_insert_perm (object : object_t) (value : string_t × dynamic_t)
    (h : ∀ e ∈ object, e.1 ≠ value.1) : (object_insert object value).Perm (value :: object) := by
  induction object with
  | nil => exact List.Perm.refl _
  | cons e rest ih =>
    have hne : e.1 ≠ value.1 := h e (List.mem_cons_self _ _)
    unfold object_insert
    by_cases h1 : value.1 < e.1
    · simp only [h1, if_true]
      exact List.Perm.refl _
    · have h2 : e.1 < value.1 := lt_of_le_of_ne (not_lt.mp h1) hne
      simp only [h1, h2, if_false, if_true]
      exact ((ih (fun e' he' => h e' (List.mem_cons_of_mem _ he'))).cons e).trans
        (List.Perm.swap value e rest)

theorem mem_object_insert (object : object_t) (value e : string_t × dynamic_t)
    (h : e ∈ object_insert object value) : e = value ∨ e ∈ object := by
  induction object with
  | nil => simpa [object_insert] using h
  | cons e' rest ih =>
    unfold object_insert at h
    by_cases h1 : value.1 < e'.1
    · simp only [h1, if_true] at h
      simpa using h
    · by_cases h2 : e'.1 < value.1
      · simp only [h1, h2, if_false, if_true, List.mem_cons] at h
        rcases h with h | h
        · exact Or.inr (h ▸ List.mem_cons_self _ _)
        · rcases ih h with h | h
          · exact Or.inl h
          · exact Or.inr (List.mem_cons_of_mem _ h)
      · simp only [h1, h2, if_false] at h
        exact Or.inr h

/-- Insertion keeps the entries in strictly ascending key order. -/
theorem object_insert_sorted (object : object_t) (value : string_t × dynamic_t)
    (h : object.Pairwise (fun a b => a.1 < b.1)) :
    (object_insert object value).Pairwise (fun a b => a.1 < b.1) := by
  induction object with
  | nil => simp [object_insert]
  | cons e rest ih =>
    have hrest := (List.pairwise_cons.mp h).2
    have hhead := (List.pairwise_cons.mp h).1
    unfold object_insert
    by_cases h1 : value.1 < e.1
    · simp only [h1, if_true]
      refine List.pairwise_cons.mpr ⟨?_, h⟩
      intro a ha
      rcases List.mem_cons.mp ha with ha | ha
      · exact ha ▸ h1
      · exact lt_trans h1 (hhead a ha)
    · by_cases h2 : e.1 < value.1
      · simp only [h1, h2, if_false, if_true]
        refine List.pairwise_cons.mpr ⟨?_, ih hrest⟩
        intro a ha
        rcases mem_object_insert rest value a ha with ha | ha
        · exact ha ▸ h2
        · exact hhead a ha
      · simp only [h1, h2, if_false]
        exact h

/-- The entry loop of the key-ordered mapping rule appends the converted entries when
the source is in ascending key order and its keys are above those already present. -/
theorem map_loop_eq {T : Type u} (conv : rule_t T) (d : T → dynamic_t)
    (from_ : List (string_t × T)) (hconv : ∀ e ∈ from_, construct conv e.2 = .ok (d e.2))
    (hinv : map_invariant from_) :
    ∀ init : object_t, (∀ a ∈ init, ∀ e ∈ from_, a.1 < e.1) →
      from_.foldlM
        (fun object it => do pure (object_insert object (← value_type conv it.1 it.2))) init
        = .ok (init ++ from_.map (fun e => (e.1, d e.2))) := by
  induction from_ with
  | nil => intro init _; simp [pure, Except.pure]
  | cons e rest ih =>
    intro init hinit
    have hrest : map_invariant rest := (List.pairwise_cons.mp hinv).2
    have hhead := (List.pairwise_cons.mp hinv).1
    rw [List.foldlM_cons]
    show ((value_type conv e.1 e.2 >>= fun v => pure (object_insert init v)) >>= _) = _
    rw [value_type_ok conv e.1 e.2 _ (hconv e (List.mem_cons_self _ _)), bind_ok]
    show ((Except.ok (object_insert init (e.1, d e.2)) : Except Fault object_t) >>= _) = _
    rw [bind_ok, object_insert_append init _ (fun a ha => hinit a ha e (List.mem_cons_self _ _))]
    rw [ih (fun e' he' => hconv e' (List.mem_cons_of_mem _ he')) hrest]
    · simp
    · intro a ha e' he'
      rcases List.mem_append.mp ha with ha | ha
      · exact hinit a ha e' (List.mem_cons_of_mem _ he')
      · have : a = (e.1, d e.2) := by simpa using ha
        subst this
        exact hhead e' he'

theorem map_convert_eq {T : Type u} (conv : rule_t T) (d : T → dynamic_t)
    (from_ : List (string_t × T)) (hconv : ∀ e ∈ from_, construct conv e.2 = .ok (d e.2))
    (hinv : map_invariant from_) (to_ : dynamic_t) :
    map.convert conv from_ to_
      = .ok (dynamic_t.object (from_.map (fun e => (e.1, d e.2)))) := by
  unfold map.convert
  simp only [dynamic_t.assign, dynamic_t.as_object, bind_ok]
  rw [map_loop_eq conv d from_ hconv hinv []
    (fun a ha => absurd ha (List.not_mem_nil a)), bind_ok]
  simp [pure, Except.pure]

/-- The entry loop of the hash-ordered mapping rule yields the entries in ascending key
order, whatever the order in which the source is visited. -/
theorem unordered_map_loop_eq {T : Type u} (conv : rule_t T) (d : T → dynamic_t)
    (from_ : List (string_t × T)) (hconv : ∀ e ∈ from_, construct conv e.2 = .ok (d e.2))
    (hinv : unordered_map_invariant from_) :
    ∀ init : object_t, init.Pairwise (fun a b => a.1 < b.1) →
      (∀ a ∈ init, ∀ e ∈ from_, a.1 ≠ e.1) →
      ∃ object : object_t,
        from_.foldlM (fun object it => object_insert_key_value conv object it.1 it.2) init
          = .ok object ∧
        object.Pairwise (fun a b => a.1 < b.1) ∧
        object.Perm (init ++ from_.map (fun e => (e.1, d e.2))) := by
  induction from_ with
  | nil =>
    intro init hs _
    exact ⟨init, rfl, hs, by simp⟩
  | cons e rest ih =>
    intro init hs hinit
    have hnd : e.1 ∉ rest.map Prod.fst ∧ (rest.map Prod.fst).Nodup := List.nodup_cons.mp hinv
    have hrest : unordered_map_invariant rest := hnd.2
    have hnew : ∀ a ∈ init, a.1 ≠ e.1 := fun a ha => hinit a ha e (List.mem_cons_self _ _)
    have hstep : object_insert_key_value conv init e.1 e.2
        = .ok (object_insert init (e.1, d e.2)) := by
      unfold object_insert_key_value
      rw [value_type_ok conv e.1 e.2 _ (hconv e (List.mem_cons_self _ _)), bind_ok]
      rfl
    obtain ⟨object, hrun, hsorted, hperm⟩ :=
      ih (fun e' he' => hconv e' (List.mem_cons_of_mem _ he')) hrest
        (object_insert init (e.1, d e.2)) (object_insert_sorted init _ hs)
        (by
          intro a ha e' he'
          rcases mem_object_insert init _ a ha with ha | ha
          · subst ha
            intro heq
            have hm : e'.1 ∈ rest.map Prod.fst := List.mem_map_of_mem Prod.fst he'
            have heq2 : e.1 = e'.1 := heq
            rw [← heq2] at hm
            exact hnd.1 hm
          · exact hinit a ha e' (List.mem_cons_of_mem _ he'))
    refine ⟨object, ?_, hsorted, ?_⟩
    · rw [List.foldlM_cons, hstep, bind_ok]
      exact hrun
    · refine hperm.trans ?_
      have h1 := object_insert_perm init (e.1, d e.2) hnew
      refine (List.Perm.append_right _ h1).trans ?_
      simp only [List.map_cons, List.cons_append]
      exact List.perm_middle.symm

theorem unordered_map_convert_eq {T : Type u} (conv : rule_t T) (d : T → dynamic_t)
    (from_ : List (string_t × T)) (hconv : ∀ e ∈ from_, construct conv e.2 = .ok (d e.2))
    (hinv : unordered_map_invariant from_) (to_ : dynamic_t) :
    ∃ object : object_t,
      unordered_map.convert conv from_ to_ = .ok (dynamic_t.object object) ∧
      object.Pairwise (fun a b => a.1 < b.1) ∧
      object.Perm (from_.map (fun e => (e.1, d e.2))) := by
  obtain ⟨object, hrun, hsorted, hperm⟩ :=
    unordered_map_loop_eq conv d from_ hconv hinv [] List.Pairwise.nil
      (fun a ha => absurd ha (List.not_mem_nil a))
  refine ⟨object, ?_, hsorted, by simpa using hperm⟩
  unfold unordered_map.convert
  simp only [dynamic_t.assign, dynamic_t.as_object, bind_ok]
  rw [hrun, bind_ok]
  rfl

theorem value_or_null_spec {From : Type u} (conv : rule_t From) (x : From)
    (h : ∃ v, construct conv x = .ok v) :
    construct conv x = .ok (value_or_null (construct conv x)) := by
  obtain ⟨v, hv⟩ := h
  rw [hv]
  rfl

theorem map_invariant_nodup {T : Type u} (from_ : List (string_t × T))
    (h : map_invariant from_) : unordered_map_invariant from_ := by
  unfold unordered_map_invariant
  unfold map_invariant at h
  rw [List.Nodup, List.pairwise_map]
  exact h.imp (fun hab => ne_of_lt hab)

theorem map_invariant_map {T : Type u} (g : T → dynamic_t) (from_ : List (string_t × T))
    (h : map_invariant from_) :
    (from_.map (fun e => (e.1, g e.2))).Pairwise (fun a b => a.1 < b.1) := by
  rw [List.pairwise_map]
  exact h

theorem lookup_map_snd {T : Type u} (g : T → dynamic_t) (from_ : List (string_t × T))
    (k : string_t) :
    List.lookup k (from_.map (fun e => (e.1, g e.2))) = (List.lookup k from_).map g := by
  induction from_ with
  | nil => rfl
  | cons e rest ih =>
    obtain ⟨k', x⟩ := e
    simp only [List.map_cons, List.lookup_cons]
    cases hk : (k == k')
    · simpa using ih
    · rfl

/-- Two objects in strictly ascending key order with the same entries are equal. -/
theorem object_eq_of_perm (o1 o2 : object_t) (h1 : o1.Pairwise (fun a b => a.1 < b.1))
    (h2 : o2.Pairwise (fun a b => a.1 < b.1)) (hperm : o1.Perm o2) : o1 = o2 := by
  haveI : IsAntisymm (string_t × dynamic_t) (fun a b => a.1 < b.1) :=
    ⟨fun a b hab hba => absurd hab (lt_asymm hba)⟩
  exact List.eq_of_perm_of_sorted hperm h1 h2

theorem lookup_mem_snd {T : Type u} (from_ : List (string_t × T)) (k : string_t) (x : T)
    (h : List.lookup k from_ = some x) : ∃ e ∈ from_, e.2 = x := by
  induction from_ with
  | nil => simp at h
  | cons e rest ih =>
    obtain ⟨k', y⟩ := e
    rw [List.lookup_cons] at h
    cases hk : (k == k')
    · rw [hk] at h
      obtain ⟨e', he', hx⟩ := ih h
      exact ⟨e', List.mem_cons_of_mem _ he', hx⟩
    · rw [hk] at h
      exact ⟨(k', y), List.mem_cons_self _ _, Option.some.inj h⟩

/-! ## Sequences, tuples and mappings -/

/-- C1: for a sequence whose elements are all convertible, the borrowed-source
conversion of a `std::vector<T>` and of a native array `T[N]` gives an `Array` of the
length of the source whose `i`-th element is `construct` of the `i`-th source element;
the sequence `[1, 2, 3]` of signed integers gives `[Int(1), Int(2), Int(3)]`. -/
theorem C1_sequence_conversion {T : Type u} (conv : rule_t T) (from_ : List T)
    (to_ : dynamic_t) (hconv : ∀ x ∈ from_, ∃ v, construct conv x = .ok v) :
    (∃ array : array_t,
      vector.convert conv from_ to_ = .ok (dynamic_t.array array) ∧
      native_array.convert from_.length conv from_ to_ = .ok (dynamic_t.array array) ∧
      (dynamic_t.array array).active_kind = VariantKind.Array ∧
      array.length = from_.length ∧
      ∀ (i : Nat) (hi : i < from_.length) (ha : i < array.length),
        construct conv from_[i] = .ok array[i]) ∧
    vector.convert signed_integral.convert [1, 2, 3] to_
      = .ok (dynamic_t.array [dynamic_t.int 1, dynamic_t.int 2, dynamic_t.int 3]) := by
  have hd : ∀ x ∈ from_, construct conv x = .ok (value_or_null (construct conv x)) :=
    fun x hx => value_or_null_spec conv x (hconv x hx)
  refine ⟨⟨from_.map (fun x => value_or_null (construct conv x)),
    vector_convert_eq conv _ from_ hd to_, native_array_convert_eq conv _ from_ hd to_, rfl,
    List.length_map _ _, ?_⟩, rfl⟩
  intro i hi ha
  rw [List.getElem_map]
  exact hd _ (List.getElem_mem hi)

/-- C1, witness: a sequence of two sequences of signed integers. -/
theorem C1_sequence_conversion_witness :
    (∃ array : array_t,
      vector.convert (vector.convert signed_integral.convert) [[1], [2, 3]] dynamic_t.null
        = .ok (dynamic_t.array array) ∧
      native_array.convert 2 (vector.convert signed_integral.convert) [[1], [2, 3]]
        dynamic_t.null = .ok (dynamic_t.array array) ∧
      (dynamic_t.array array).active_kind = VariantKind.Array ∧
      array.length = 2 ∧
      ∀ (i : Nat) (hi : i < [[(1 : Int)], [2, 3]].length) (ha : i < array.length),
        construct (vector.convert signed_integral.convert) [[(1 : Int)], [2, 3]][i]
          = .ok array[i]) ∧
    vector.convert signed_integral.convert [1, 2, 3] dynamic_t.null
      = .ok (dynamic_t.array [dynamic_t.int 1, dynamic_t.int 2, dynamic_t.int 3]) :=
  C1_sequence_conversion (vector.convert signed_integral.convert) [[1], [2, 3]]
    dynamic_t.null
    (fun x _ => ⟨_, vector_convert_eq signed_integral.convert
      (fun v => dynamic_t.int (dynamic_t.int_t v)) x (fun _ _ => rfl) dynamic_t.null⟩)

/-- C2: for a tuple whose slots are all convertible, the borrowed-source conversion
gives an `Array` with exactly one element per slot, the element at position `k` being
`construct` of slot `k`; the tuple `(7, "x")` gives `[Int(7), String("x")]` and the empty
tuple gives the empty `Array`. -/
theorem C2_tuple_conversion (from_ : List slot_t.{u}) (to_ : dynamic_t)
    (hconv : ∀ s ∈ from_, ∃ v, construct s.conv s.value = .ok v) :
    (∃ array : array_t,
      tuple.convert from_ to_ = .ok (dynamic_t.array array) ∧
      array.length = from_.length ∧
      ∀ (k : Nat) (hk : k < from_.length) (ha : k < array.length),
        construct from_[k].conv from_[k].value = .ok array[k]) ∧
    tuple.convert
        [⟨Int, signed_integral.convert, 7⟩, ⟨List Char, char_array.convert 2, ['x', Char.ofNat 0]⟩]
        to_
      = .ok (dynamic_t.array [dynamic_t.int 7, dynamic_t.string ['x']]) ∧
    tuple.convert ([] : List slot_t.{u}) to_ = .ok (dynamic_t.array []) := by
  have hd : ∀ s ∈ from_,
      construct s.conv s.value = .ok (value_or_null (construct s.conv s.value)) :=
    fun s hs => value_or_null_spec s.conv s.value (hconv s hs)
  refine ⟨⟨from_.map (fun s => value_or_null (construct s.conv s.value)),
    tuple_convert_eq _ from_ hd to_, List.length_map _ _, ?_⟩, ?_, ?_⟩
  · intro k hk ha
    rw [List.getElem_map]
    exact hd _ (List.getElem_mem hk)
  · rw [tuple_convert_eq (fun s => value_or_null (construct s.conv s.value))]
    · rfl
    · intro s hs
      simp only [List.mem_cons, List.mem_singleton, List.not_mem_nil, or_false] at hs
      rcases hs with rfl | rfl <;> rfl
  · rw [tuple_convert_eq (fun s => value_or_null (construct s.conv s.value)) []
      (fun s hs => absurd hs (List.not_mem_nil s))]
    rfl

/-- C2, witness: a tuple of a signed integer, a sequence and a character buffer. -/
theorem C2_tuple_conversion_witness :
    ∃ array : array_t,
      tuple.convert
          [⟨Int, signed_integral.convert, -5⟩,
           ⟨List Nat, vector.convert unsigned_integral.convert, [1, 2]⟩,
           ⟨List Char, char_array.convert 3, ['h', 'i', Char.ofNat 0]⟩]
          dynamic_t.null
        = .ok (dynamic_t.array array) ∧
      array.length = 3 := by
  obtain ⟨array, h1, h2, _⟩ := (C2_tuple_conversion
    [⟨Int, signed_integral.convert, -5⟩,
     ⟨List Nat, vector.convert unsigned_integral.convert, [1, 2]⟩,
     ⟨List Char, char_array.convert 3, ['h', 'i', Char.ofNat 0]⟩]
    dynamic_t.null
    (by
      intro s hs
      simp only [List.mem_cons, List.mem_singleton, List.not_mem_nil, or_false] at hs
      rcases hs with rfl | rfl | rfl <;> exact ⟨_, rfl⟩)).1
  exact ⟨array, h1, h2⟩

/-- C3: for a key-ordered string-keyed mapping whose values are all convertible, the
borrowed-source conversion gives an `Object` with the keys of the source, in the same
(ascending) order, whose value at every key is `construct` of the source value at that
key; the mapping `a ↦ 1, b ↦ 2` gives the entries `(a, Int(1)), (b, Int(2))`. -/
theorem C3_map_conversion {T : Type u} (conv : rule_t T) (from_ : List (string_t × T))
    (to_ : dynamic_t) (hinv : map_invariant from_)
    (hconv : ∀ e ∈ from_, ∃ v, construct conv e.2 = .ok v) :
    (∃ object : object_t,
      map.convert conv from_ to_ = .ok (dynamic_t.object object) ∧
      (dynamic_t.object object).active_kind = VariantKind.Object ∧
      object.map Prod.fst = from_.map Prod.fst ∧
      (∀ (k : string_t) (x : T), List.lookup k from_ = some x →
        ∃ v, construct conv x = .ok v ∧ List.lookup k object = some v) ∧
      object.Pairwise (fun a b => a.1 < b.1)) ∧
    map.convert signed_integral.convert [(['a'], 1), (['b'], 2)] to_
      = .ok (dynamic_t.object [(['a'], dynamic_t.int 1), (['b'], dynamic_t.int 2)]) := by
  have hd : ∀ e ∈ from_, construct conv e.2 = .ok (value_or_null (construct conv e.2)) :=
    fun e he => value_or_null_spec conv e.2 (hconv e he)
  refine ⟨⟨from_.map (fun e => (e.1, value_or_null (construct conv e.2))),
    map_convert_eq conv (fun x => value_or_null (construct conv x)) from_ hd hinv to_, rfl,
    ?_, ?_, map_invariant_map (fun x => value_or_null (construct conv x)) from_ hinv⟩, rfl⟩
  · rw [List.map_map]
    rfl
  · intro k x hk
    obtain ⟨e, he, hx⟩ := lookup_mem_snd from_ k x hk
    refine ⟨value_or_null (construct conv x), hx ▸ hd e he, ?_⟩
    rw [lookup_map_snd (fun x => value_or_null (construct conv x)) from_ k, hk]
    rfl

/-- C3, witness: a mapping with three keys and sequences as values. -/
theorem C3_map_conversion_witness :
    ∃ object : object_t,
      map.convert (vector.convert signed_integral.convert)
          [(['a'], [1, 2]), (['a', 'b'], []), (['b'], [-3])] dynamic_t.null
        = .ok (dynamic_t.object object) ∧
      object.map Prod.fst = [['a'], ['a', 'b'], ['b']] ∧
      object.Pairwise (fun a b => a.1 < b.1) := by
  obtain ⟨object, h1, _, h2, _, h3⟩ := (C3_map_conversion
    (vector.convert signed_integral.convert)
    [(['a'], [1, 2]), (['a', 'b'], []), (['b'], [-3])] dynamic_t.null
    (by unfold map_invariant; decide)
    (fun e _ => ⟨_, vector_convert_eq signed_integral.convert
      (fun v => dynamic_t.int (dynamic_t.int_t v)) e.2 (fun _ _ => rfl) dynamic_t.null⟩)).1
  exact ⟨object, h1, h2, h3⟩

/-- C4: the hash-ordered mapping conversion does not depend on the order in which the
source is visited and agrees with the key-ordered mapping conversion: for entries in
ascending key order and any rearrangement of them, converting the hash-ordered mapping
that is visited in the rearranged order gives the same result as converting the
key-ordered mapping, an `Object` in ascending key order. -/
theorem C4_unordered_map_conversion {T : Type u} (conv : rule_t T)
    (entries permuted : List (string_t × T)) (to_ : dynamic_t)
    (hinv : map_invariant entries) (hperm : permuted.Perm entries)
    (hconv : ∀ e ∈ entries, ∃ v, construct conv e.2 = .ok v) :
    unordered_map.convert conv permuted to_ = map.convert conv entries to_ ∧
    ∃ object : object_t,
      unordered_map.convert conv permuted to_ = .ok (dynamic_t.object object) ∧
      object.Pairwise (fun a b => a.1 < b.1) := by
  have hd : ∀ e ∈ entries, construct conv e.2 = .ok (value_or_null (construct conv e.2)) :=
    fun e he => value_or_null_spec conv e.2 (hconv e he)
  have hd2 : ∀ e ∈ permuted,
      construct conv e.2 = .ok (value_or_null (construct conv e.2)) :=
    fun e he => hd e (hperm.mem_iff.mp he)
  have hinv2 : unordered_map_invariant permuted := by
    have h := map_invariant_nodup entries hinv
    unfold unordered_map_invariant at h ⊢
    exact (hperm.map Prod.fst).nodup_iff.mpr h
  obtain ⟨object, hrun, hsorted, hp⟩ :=
    unordered_map_convert_eq conv (fun x => value_or_null (construct conv x)) permuted hd2
      hinv2 to_
  have heq : object = entries.map (fun e => (e.1, value_or_null (construct conv e.2))) :=
    object_eq_of_perm _ _ hsorted
      (map_invariant_map (fun x => value_or_null (construct conv x)) entries hinv)
      (hp.trans (hperm.map _))
  refine ⟨?_, object, hrun, hsorted⟩
  rw [hrun, heq, map_convert_eq conv (fun x => value_or_null (construct conv x)) entries hd
    hinv to_]

/-- C4, witness: three entries visited in the order `c`, `a`, `b`. -/
theorem C4_unordered_map_conversion_witness :
    unordered_map.convert signed_integral.convert [(['c'], 3), (['a'], 1), (['b'], 2)]
        dynamic_t.null
      = map.convert signed_integral.convert [(['a'], 1), (['b'], 2), (['c'], 3)]
        dynamic_t.null ∧
    ∃ object : object_t,
      unordered_map.convert signed_integral.convert [(['c'], 3), (['a'], 1), (['b'], 2)]
          dynamic_t.null
        = .ok (dynamic_t.object object) ∧
      object.Pairwise (fun a b => a.1 < b.1) :=
  C4_unordered_map_conversion signed_integral.convert [(['a'], 1), (['b'], 2), (['c'], 3)]
    [(['c'], 3), (['a'], 1), (['b'], 2)] dynamic_t.null
    (by unfold map_invariant; decide) (by decide) (fun _ _ => ⟨_, rfl⟩)

/-! ## Scalars and character buffers -/

theorem uint_t_of_lt (x : Nat) (h : x < 2 ^ 64) : dynamic_t.uint_t x = x := by
  unfold dynamic_t.uint_t
  exact Nat.mod_eq_of_lt h

theorem int_t_of_range (x : Int) (h1 : -(2 ^ 63) ≤ x) (h2 : x < 2 ^ 63) :
    dynamic_t.int_t x = x := by
  unfold dynamic_t.int_t
  rw [Int.emod_eq_of_lt (by omega) (by omega)]
  omega

theorem int_t_of_high (x : Int) (h1 : 2 ^ 63 ≤ x) (h2 : x < 2 ^ 64) :
    dynamic_t.int_t x = x - 2 ^ 64 := by
  unfold dynamic_t.int_t
  omega

theorem pow_le_of_width (w : Nat) (hw : w ≤ 64) : (2 : Nat) ^ w ≤ 2 ^ 64 :=
  Nat.pow_le_pow_right (by decide) hw

theorem int_pow_le_of_width (w : Nat) (hw : w ≤ 63) : (2 : Int) ^ w ≤ 2 ^ 63 := by
  have h : (2 : Nat) ^ w ≤ 2 ^ 63 := Nat.pow_le_pow_right (by decide) hw
  exact_mod_cast h

theorem char_array_convert_eq (N : Nat) (b : List Char) (to_ : dynamic_t) (hN : 1 ≤ N)
    (hb : b.length = N) :
    char_array.convert N b to_ = .ok (dynamic_t.string (b.take (N - 1))) := by
  have h0 : N ≠ 0 := by omega
  have hle : N - 1 ≤ b.length := by omega
  unfold char_array.convert
  simp only [dynamic_t.assign, dynamic_t.as_string, bind_ok, char_array.size_t_pred, h0,
    if_false, char_array.string_assign, hle, if_true]
  rfl

/-- C5 fails as stated: an enumerator with value `1` of an enumeration whose underlying
type is unsigned and 32 bits wide converts to `Int(1)`, the value `1` of the underlying
type converts to `UInt(1)`. -/
theorem C5_enumeration_counterexample :
    integral_type.in_range ⟨false, false, 32⟩ 1 ∧
    construct_enumeration ⟨false, false, 32⟩ 1 = .ok (dynamic_t.int 1) ∧
    construct_integral ⟨false, false, 32⟩ 1 = .ok (dynamic_t.uint 1) ∧
    construct_enumeration ⟨false, false, 32⟩ 1 ≠ construct_integral ⟨false, false, 32⟩ 1 := by
  refine ⟨by unfold integral_type.in_range; decide, rfl, rfl, ?_⟩
  intro h
  have h2 : (Except.ok (dynamic_t.int 1) : Except Fault dynamic_t)
      = Except.ok (dynamic_t.uint 1) := h
  cases h2

/-- C5, amended: for an enumeration whose underlying integer type is signed (at most 64
bits wide) `construct` of an enumerator equals `construct` of its underlying value; for
an unsigned underlying type `construct` of an enumerator is an `Int` holding the
underlying value reinterpreted as a signed 64-bit integer, whereas `construct` of the
underlying value is a `UInt`. -/
theorem C5_enumeration_conversion (u : integral_type) (v : Int) (hbits : u.bits ≤ 64)
    (hv : u.in_range v) :
    (u.is_signed = true → construct_enumeration u v = construct_integral u v) ∧
    (u.is_signed = false →
      construct_enumeration u v
        = .ok (dynamic_t.int (if v < 2 ^ 63 then v else v - 2 ^ 64)) ∧
      construct_integral u v = .ok (dynamic_t.uint v.toNat)) := by
  constructor
  · intro hs
    simp only [construct_enumeration, construct_integral, hs, if_true]
    rfl
  · intro hs
    have hr : 0 ≤ v ∧ v < 2 ^ u.bits := by
      simpa [integral_type.in_range, hs] using hv
    have hpow : (2 : Int) ^ u.bits ≤ 2 ^ 64 := by
      have h := pow_le_of_width u.bits hbits
      exact_mod_cast h
    have hlt : v < 2 ^ 64 := lt_of_lt_of_le hr.2 hpow
    constructor
    · show Except.ok (dynamic_t.int (dynamic_t.int_t v)) = _
      by_cases h63 : v < 2 ^ 63
      · rw [int_t_of_range v (by omega) h63, if_pos h63]
      · rw [int_t_of_high v (by omega) hlt, if_neg h63]
    · simp only [construct_integral, hs]
      show Except.ok (dynamic_t.uint (dynamic_t.uint_t v.toNat)) = _
      rw [uint_t_of_lt]
      omega

/-- C5, witness: the largest value of an unsigned 64-bit underlying type. -/
theorem C5_enumeration_conversion_witness :
    (false = true → construct_enumeration ⟨false, false, 64⟩ (2 ^ 64 - 1)
        = construct_integral ⟨false, false, 64⟩ (2 ^ 64 - 1)) ∧
    (false = false →
      construct_enumeration ⟨false, false, 64⟩ (2 ^ 64 - 1)
        = .ok (dynamic_t.int
            (if (2 ^ 64 - 1 : Int) < 2 ^ 63 then 2 ^ 64 - 1 else 2 ^ 64 - 1 - 2 ^ 64)) ∧
      construct_integral ⟨false, false, 64⟩ (2 ^ 64 - 1)
        = .ok (dynamic_t.uint (2 ^ 64 - 1 : Int).toNat)) :=
  C5_enumeration_conversion ⟨false, false, 64⟩ (2 ^ 64 - 1) (by decide)
    (by unfold integral_type.in_range; decide)

/-- C6: for an unsigned integral source of width 8, 16, 32 or 64 bits and every value
`x` of it, the conversion gives a `UInt` whose stored value is `x`. -/
theorem C6_unsigned_conversion (w x : Nat) (to_ : dynamic_t)
    (hw : w = 8 ∨ w = 16 ∨ w = 32 ∨ w = 64) (hx : x < 2 ^ w) :
    unsigned_integral.convert x to_ = .ok (dynamic_t.uint x) ∧
    construct unsigned_integral.convert x = .ok (dynamic_t.uint x) ∧
    (dynamic_t.uint x).active_kind = VariantKind.UInt := by
  have hw64 : w ≤ 64 := by omega
  have h : x < 2 ^ 64 := lt_of_lt_of_le hx (pow_le_of_width w hw64)
  refine ⟨?_, ?_, rfl⟩
  · show Except.ok (dynamic_t.uint (dynamic_t.uint_t x)) = _
    rw [uint_t_of_lt x h]
  · show Except.ok (dynamic_t.uint (dynamic_t.uint_t x)) = _
    rw [uint_t_of_lt x h]

/-- C6, witness: the largest 64-bit unsigned value. -/
theorem C6_unsigned_conversion_witness :
    unsigned_integral.convert (2 ^ 64 - 1) (dynamic_t.array [])
      = .ok (dynamic_t.uint (2 ^ 64 - 1)) ∧
    construct unsigned_integral.convert (2 ^ 64 - 1) = .ok (dynamic_t.uint (2 ^ 64 - 1)) ∧
    (dynamic_t.uint (2 ^ 64 - 1)).active_kind = VariantKind.UInt :=
  C6_unsigned_conversion 64 (2 ^ 64 - 1) (dynamic_t.array [])
    (Or.inr (Or.inr (Or.inr rfl))) (by decide)

/-- C7: for a signed integral source of width 8, 16, 32 or 64 bits and every value `x`
of it, the conversion gives an `Int` whose stored value is `x`, sign included. -/
theorem C7_signed_conversion (w : Nat) (x : Int) (to_ : dynamic_t)
    (hw : w = 8 ∨ w = 16 ∨ w = 32 ∨ w = 64)
    (hx : -(2 ^ (w - 1)) ≤ x ∧ x < 2 ^ (w - 1)) :
    signed_integral.convert x to_ = .ok (dynamic_t.int x) ∧
    construct signed_integral.convert x = .ok (dynamic_t.int x) ∧
    (dynamic_t.int x).active_kind = VariantKind.Int := by
  have hw63 : w - 1 ≤ 63 := by omega
  have hp := int_pow_le_of_width (w - 1) hw63
  have h : dynamic_t.int_t x = x := int_t_of_range x (by omega) (by omega)
  refine ⟨?_, ?_, rfl⟩
  · show Except.ok (dynamic_t.int (dynamic_t.int_t x)) = _
    rw [h]
  · show Except.ok (dynamic_t.int (dynamic_t.int_t x)) = _
    rw [h]

/-- C7, witness: the minimum value of the 64-bit signed type. -/
theorem C7_signed_conversion_witness :
    signed_integral.convert (-(2 ^ 63)) (dynamic_t.array [])
      = .ok (dynamic_t.int (-(2 ^ 63))) ∧
    construct signed_integral.convert (-(2 ^ 63)) = .ok (dynamic_t.int (-(2 ^ 63))) ∧
    (dynamic_t.int (-(2 ^ 63))).active_kind = VariantKind.Int :=
  C7_signed_conversion 64 (-(2 ^ 63)) (dynamic_t.array [])
    (Or.inr (Or.inr (Or.inr rfl))) (by decide)

/-- C8: for every `N ≥ 1` and every character buffer of size `N`, whatever its
contents, the conversion gives a `String` of length `N - 1` whose `k`-th character is
the `k`-th character of the buffer; a buffer of size 1 gives the empty `String`. -/
theorem C8_char_array_conversion (N : Nat) (b : List Char) (to_ : dynamic_t) (hN : 1 ≤ N)
    (hb : b.length = N) :
    (∃ s : string_t,
      char_array.convert N b to_ = .ok (dynamic_t.string s) ∧
      (dynamic_t.string s).active_kind = VariantKind.String ∧
      s.length = N - 1 ∧
      ∀ (k : Nat) (_hk : k < N - 1) (hs : k < s.length) (hbk : k < b.length), s[k] = b[k]) ∧
    (N = 1 → char_array.convert N b to_ = .ok (dynamic_t.string [])) := by
  refine ⟨⟨b.take (N - 1), char_array_convert_eq N b to_ hN hb, rfl, ?_, ?_⟩, ?_⟩
  · rw [List.length_take]
    omega
  · intro k _ hs hbk
    exact List.getElem_take' b hbk (by rw [List.length_take] at hs; omega) |>.symm
  · intro h1
    rw [char_array_convert_eq N b to_ hN hb, h1]
    rfl

/-- C8, witness: a buffer of size 4 with an embedded zero character and a last
character that is not zero. -/
theorem C8_char_array_conversion_witness :
    (∃ s : string_t,
      char_array.convert 4 ['a', Char.ofNat 0, 'b', 'c'] (dynamic_t.int 5)
        = .ok (dynamic_t.string s) ∧
      (dynamic_t.string s).active_kind = VariantKind.String ∧
      s.length = 4 - 1 ∧
      ∀ (k : Nat) (_hk : k < 4 - 1) (hs : k < s.length)
        (hbk : k < ['a', Char.ofNat 0, 'b', 'c'].length),
        s[k] = ['a', Char.ofNat 0, 'b', 'c'][k]) ∧
    (4 = 1 → char_array.convert 4 ['a', Char.ofNat 0, 'b', 'c'] (dynamic_t.int 5)
      = .ok (dynamic_t.string [])) :=
  C8_char_array_conversion 4 ['a', Char.ofNat 0, 'b', 'c'] (dynamic_t.int 5) (by decide) rfl

/-! ## Rule predicates -/

/-- C9 fails as stated: the type `char[6]` matches the predicate of the `char[N]` rule
and the predicate of the `T[N]` rule. -/
theorem C9_rule_overlap_counterexample :
    rule_matches rule.char_array
        (source_type.native_array (source_type.integral ⟨true, true, 8⟩) 6) = true ∧
    rule_matches rule.native_array
        (source_type.native_array (source_type.integral ⟨true, true, 8⟩) 6) = true ∧
    rule.char_array ≠ rule.native_array := by
  refine ⟨rfl, rfl, by decide⟩

/-- C9, amended: two different rules match the same source type only when the type is
a character buffer `char[N]` and the two rules are the `char[N]` rule and the `T[N]`
rule; a character buffer matches both of these; every integral type matches exactly one
of the signed-integral and the unsigned-integral rule. -/
theorem C9_rule_exclusivity :
    (∀ (T : source_type) (r1 r2 : rule), rule_matches r1 T = true →
      rule_matches r2 T = true → r1 ≠ r2 →
      T.is_char_array = true ∧
      ((r1 = rule.char_array ∧ r2 = rule.native_array) ∨
       (r1 = rule.native_array ∧ r2 = rule.char_array))) ∧
    (∀ T : source_type, T.is_char_array = true →
      rule_matches rule.char_array T = true ∧ rule_matches rule.native_array T = true) ∧
    (∀ T : source_type, T.is_integral = true →
      (rule_matches rule.unsigned_integral T = true ∧
        rule_matches rule.signed_integral T = false) ∨
      (rule_matches rule.unsigned_integral T = false ∧
        rule_matches rule.signed_integral T = true)) := by
  refine ⟨?_, ?_, ?_⟩
  · intro T r1 r2 h1 h2 hne
    cases T <;> cases r1 <;> cases r2 <;>
      simp_all [rule_matches, source_type.is_integral, source_type.is_unsigned,
        source_type.is_signed, source_type.is_enum, source_type.is_floating_point,
        source_type.is_same_dynamic, source_type.is_char_array]
  · intro T h
    cases T <;>
      simp_all [rule_matches, source_type.is_char_array]
  · intro T h
    cases T <;>
      simp_all [rule_matches, source_type.is_integral, source_type.is_unsigned,
        source_type.is_signed]

/-- C9, witness: the two rules matching `char[6]`, and the type `unsigned int`. -/
theorem C9_rule_exclusivity_witness :
    (source_type.native_array (source_type.integral ⟨true, true, 8⟩) 6).is_char_array = true ∧
    ((rule_matches rule.unsigned_integral (source_type.integral ⟨false, false, 32⟩) = true ∧
        rule_matches rule.signed_integral (source_type.integral ⟨false, false, 32⟩) = false) ∨
      (rule_matches rule.unsigned_integral (source_type.integral ⟨false, false, 32⟩) = false ∧
        rule_matches rule.signed_integral (source_type.integral ⟨false, false, 32⟩) = true)) :=
  ⟨(C9_rule_exclusivity.1 (source_type.native_array (source_type.integral ⟨true, true, 8⟩) 6)
      rule.char_array rule.native_array rfl rfl (by decide)).1,
    C9_rule_exclusivity.2.2 (source_type.integral ⟨false, false, 32⟩) rfl⟩

/-! ## Totality and losslessness -/

theorem ok_inj {α : Type} (a b : α) (h : (Except.ok a : Except Fault α) = Except.ok b) :
    a = b := by
  cases h
  rfl

theorem value_or_null_eq {From : Type u} (conv : rule_t From) (x y : From)
    (hx : ∃ v, construct conv x = .ok v)
    (h : value_or_null (construct conv x) = value_or_null (construct conv y))
    (hy : ∃ v, construct conv y = .ok v) :
    construct conv x = construct conv y := by
  rw [value_or_null_spec conv x hx, value_or_null_spec conv y hy, h]

theorem forall₂_of_map_eq {α : Type u} {β : Type} (f : α → β) (R : α → α → Prop) :
    ∀ (l1 l2 : List α), l1.map f = l2.map f →
      (∀ x ∈ l1, ∀ y ∈ l2, f x = f y → R x y) → List.Forall₂ R l1 l2 := by
  intro l1
  induction l1 with
  | nil =>
    intro l2 h _
    cases l2 with
    | nil => exact List.Forall₂.nil
    | cons y l2 => simp at h
  | cons x l1 ih =>
    intro l2 h hR
    cases l2 with
    | nil => simp at h
    | cons y l2 =>
      simp only [List.map_cons, List.cons.injEq] at h
      exact List.Forall₂.cons (hR x (List.mem_cons_self _ _) y (List.mem_cons_self _ _) h.1)
        (ih l2 h.2 (fun a ha b hb => hR a (List.mem_cons_of_mem _ ha) b
          (List.mem_cons_of_mem _ hb)))

theorem lossless_unsigned (w : Nat) (hw : w ≤ 64) :
    lossless unsigned_integral.convert (fun x => x < 2 ^ w) Eq := by
  refine ⟨fun x _ => ⟨_, rfl⟩, ?_⟩
  intro x y hx hy h
  have hx64 : x < 2 ^ 64 := lt_of_lt_of_le hx (pow_le_of_width w hw)
  have hy64 : y < 2 ^ 64 := lt_of_lt_of_le hy (pow_le_of_width w hw)
  have h2 : dynamic_t.uint (dynamic_t.uint_t x) = dynamic_t.uint (dynamic_t.uint_t y) :=
    ok_inj _ _ h
  rw [uint_t_of_lt x hx64, uint_t_of_lt y hy64] at h2
  exact dynamic_t.uint.inj h2

theorem enumeration_injective (u : integral_type) (hbits : u.bits ≤ 64) (x y : Int)
    (hx : u.in_range x) (hy : u.in_range y)
    (h : dynamic_t.int_t x = dynamic_t.int_t y) : x = y := by
  unfold integral_type.in_range at hx hy
  unfold dynamic_t.int_t at h
  by_cases hs : u.is_signed = true
  · rw [if_pos hs] at hx hy
    have hp := int_pow_le_of_width (u.bits - 1) (by omega)
    omega
  · rw [if_neg hs] at hx hy
    have hp : (2 : Int) ^ u.bits ≤ 2 ^ 64 := by
      have h := pow_le_of_width u.bits hbits
      exact_mod_cast h
    omega

theorem lossless_signed (w : Nat) (hw : w ≤ 64) :
    lossless signed_integral.convert
      (fun x => -(2 ^ (w - 1)) ≤ x ∧ x < 2 ^ (w - 1)) Eq := by
  refine ⟨fun x _ => ⟨_, rfl⟩, ?_⟩
  intro x y hx hy h
  have h2 : dynamic_t.int (dynamic_t.int_t x) = dynamic_t.int (dynamic_t.int_t y) :=
    ok_inj _ _ h
  have hp := int_pow_le_of_width (w - 1) (by omega)
  rw [int_t_of_range x (by omega) (by omega), int_t_of_range y (by omega) (by omega)] at h2
  exact dynamic_t.int.inj h2

theorem lossless_enumeration (u : integral_type) (hbits : u.bits ≤ 64) :
    lossless enumeration.convert u.in_range Eq := by
  refine ⟨fun x _ => ⟨_, rfl⟩, ?_⟩
  intro x y hx hy h
  have h2 : dynamic_t.int (dynamic_t.int_t x) = dynamic_t.int (dynamic_t.int_t y) :=
    ok_inj _ _ h
  exact enumeration_injective u hbits x y hx hy (dynamic_t.int.inj h2)

theorem lossless_char_array (N : Nat) (hN : 1 ≤ N) :
    lossless (char_array.convert N) (fun b => b.length = N)
      (fun b1 b2 => b1.take (N - 1) = b2.take (N - 1)) := by
  refine ⟨fun b hb => ⟨_, char_array_convert_eq N b dynamic_t.null hN hb⟩, ?_⟩
  intro x y hx hy h
  unfold construct at h
  rw [char_array_convert_eq N x _ hN hx, char_array_convert_eq N y _ hN hy] at h
  exact dynamic_t.string.inj (ok_inj _ _ h)

theorem lossless_vector {T : Type u} (conv : rule_t T) (S : T → Prop) (same : T → T → Prop)
    (h : lossless conv S same) :
    lossless (vector.convert conv) (fun l => ∀ x ∈ l, S x) (List.Forall₂ same) := by
  have hd : ∀ l : List T, (∀ x ∈ l, S x) →
      ∀ x ∈ l, construct conv x = .ok (value_or_null (construct conv x)) :=
    fun l hl x hx => value_or_null_spec conv x (h.1 x (hl x hx))
  refine ⟨fun l hl => ⟨_, vector_convert_eq conv _ l (hd l hl) dynamic_t.null⟩, ?_⟩
  intro l1 l2 h1 h2 heq
  unfold construct at heq
  rw [vector_convert_eq conv _ l1 (hd l1 h1), vector_convert_eq conv _ l2 (hd l2 h2)] at heq
  refine forall₂_of_map_eq _ same l1 l2 (dynamic_t.array.inj (ok_inj _ _ heq)) ?_
  intro x hx y hy hxy
  exact h.2 x y (h1 x hx) (h2 y hy)
    (value_or_null_eq conv x y (h.1 x (h1 x hx)) hxy (h.1 y (h2 y hy)))

theorem lossless_native_array {T : Type u} (N : Nat) (conv : rule_t T) (S : T → Prop)
    (same : T → T → Prop) (h : lossless conv S same) :
    lossless (native_array.convert N conv) (fun l => l.length = N ∧ ∀ x ∈ l, S x)
      (List.Forall₂ same) := by
  have hd : ∀ l : List T, (∀ x ∈ l, S x) →
      ∀ x ∈ l, construct conv x = .ok (value_or_null (construct conv x)) :=
    fun l hl x hx => value_or_null_spec conv x (h.1 x (hl x hx))
  have hrun : ∀ l : List T, l.length = N → (∀ x ∈ l, S x) →
      native_array.convert N conv l dynamic_t.null
        = .ok (dynamic_t.array (l.map (fun x => value_or_null (construct conv x)))) := by
    intro l hlen hl
    subst hlen
    exact native_array_convert_eq conv _ l (hd l hl) dynamic_t.null
  refine ⟨fun l hl => ⟨_, hrun l hl.1 hl.2⟩, ?_⟩
  intro l1 l2 h1 h2 heq
  unfold construct at heq
  rw [hrun l1 h1.1 h1.2, hrun l2 h2.1 h2.2] at heq
  refine forall₂_of_map_eq _ same l1 l2 (dynamic_t.array.inj (ok_inj _ _ heq)) ?_
  intro x hx y hy hxy
  exact h.2 x y (h1.2 x hx) (h2.2 y hy)
    (value_or_null_eq conv x y (h.1 x (h1.2 x hx)) hxy (h.1 y (h2.2 y hy)))

theorem lossless_map {T : Type u} (conv : rule_t T) (S : T → Prop) (same : T → T → Prop)
    (h : lossless conv S same) :
    lossless (map.convert conv) (fun m => map_invariant m ∧ ∀ e ∈ m, S e.2)
      (List.Forall₂ (fun a b => a.1 = b.1 ∧ same a.2 b.2)) := by
  have hd : ∀ m : List (string_t × T), (∀ e ∈ m, S e.2) →
      ∀ e ∈ m, construct conv e.2 = .ok (value_or_null (construct conv e.2)) :=
    fun m hm e he => value_or_null_spec conv e.2 (h.1 e.2 (hm e he))
  refine ⟨fun m hm => ⟨_, map_convert_eq conv (fun x => value_or_null (construct conv x)) m
    (hd m hm.2) hm.1 dynamic_t.null⟩, ?_⟩
  intro m1 m2 h1 h2 heq
  unfold construct at heq
  rw [map_convert_eq conv (fun x => value_or_null (construct conv x)) m1 (hd m1 h1.2) h1.1,
    map_convert_eq conv (fun x => value_or_null (construct conv x)) m2 (hd m2 h2.2) h2.1]
    at heq
  refine forall₂_of_map_eq _ _ m1 m2 (dynamic_t.object.inj (ok_inj _ _ heq)) ?_
  intro a ha b hb hab
  have hab2 := Prod.mk.inj hab
  exact ⟨hab2.1, h.2 a.2 b.2 (h1.2 a ha) (h2.2 b hb)
    (value_or_null_eq conv a.2 b.2 (h.1 a.2 (h1.2 a ha)) hab2.2 (h.1 b.2 (h2.2 b hb)))⟩

theorem lossless_unordered_map {T : Type u} (conv : rule_t T) (S : T → Prop)
    (same : T → T → Prop) (h : lossless conv S same) :
    lossless (unordered_map.convert conv)
      (fun m => unordered_map_invariant m ∧ ∀ e ∈ m, S e.2) (same_entries same) := by
  have hd : ∀ m : List (string_t × T), (∀ e ∈ m, S e.2) →
      ∀ e ∈ m, construct conv e.2 = .ok (value_or_null (construct conv e.2)) :=
    fun m hm e he => value_or_null_spec conv e.2 (h.1 e.2 (hm e he))
  refine ⟨?_, ?_⟩
  · intro m hm
    obtain ⟨object, hrun, _, _⟩ := unordered_map_convert_eq conv
      (fun x => value_or_null (construct conv x)) m (hd m hm.2) hm.1 dynamic_t.null
    exact ⟨_, hrun⟩
  · intro m1 m2 h1 h2 heq
    obtain ⟨o1, hrun1, _, hp1⟩ := unordered_map_convert_eq conv
      (fun x => value_or_null (construct conv x)) m1 (hd m1 h1.2) h1.1 dynamic_t.null
    obtain ⟨o2, hrun2, _, hp2⟩ := unordered_map_convert_eq conv
      (fun x => value_or_null (construct conv x)) m2 (hd m2 h2.2) h2.1 dynamic_t.null
    unfold construct at heq
    rw [hrun1, hrun2] at heq
    have ho : o1 = o2 := dynamic_t.object.inj (ok_inj _ _ heq)
    subst ho
    have hp : (m1.map (fun e => (e.1, value_or_null (construct conv e.2)))).Perm
        (m2.map (fun e => (e.1, value_or_null (construct conv e.2)))) := hp1.symm.trans hp2
    have key : ∀ (ma mb : List (string_t × T)), (∀ e ∈ ma, S e.2) → (∀ e ∈ mb, S e.2) →
        (ma.map (fun e => (e.1, value_or_null (construct conv e.2)))).Perm
          (mb.map (fun e => (e.1, value_or_null (construct conv e.2)))) →
        ∀ a ∈ ma, ∃ b ∈ mb, a.1 = b.1 ∧
          construct conv a.2 = construct conv b.2 := by
      intro ma mb hma hmb hperm a ha
      have hmem := hperm.mem_iff.mp
        (List.mem_map_of_mem (fun e => (e.1, value_or_null (construct conv e.2))) ha)
      obtain ⟨b, hb, hba⟩ := List.mem_map.mp hmem
      have hba2 := Prod.mk.inj hba
      exact ⟨b, hb, hba2.1.symm, value_or_null_eq conv a.2 b.2 (h.1 a.2 (hma a ha))
        hba2.2.symm (h.1 b.2 (hmb b hb))⟩
    constructor
    · intro a ha
      obtain ⟨b, hb, hk, hc⟩ := key m1 m2 h1.2 h2.2 hp a ha
      exact ⟨b, hb, hk, h.2 a.2 b.2 (h1.2 a ha) (h2.2 b hb) hc⟩
    · intro b hb
      obtain ⟨a, ha, hk, hc⟩ := key m2 m1 h2.2 h1.2 hp.symm b hb
      exact ⟨a, ha, hk.symm, h.2 a.2 b.2 (h1.2 a ha) (h2.2 b hb) hc.symm⟩

theorem tuple_slots_ok (σs : List slot_type.{u})
    (h : ∀ σ ∈ σs, lossless σ.conv σ.S σ.same) :
    ∀ t : List slot_t.{u}, List.Forall₂ slot_has_type t σs →
      ∀ s ∈ t, ∃ v, construct s.conv s.value = .ok v := by
  induction σs with
  | nil =>
    intro t ht s hs
    cases ht
    exact absurd hs (List.not_mem_nil s)
  | cons σ σs ih =>
    intro t ht s hs
    cases ht with
    | cons hhead hrest =>
      rcases List.mem_cons.mp hs with hs | hs
      · obtain ⟨x, hx, hsx⟩ := hhead
        rw [hs, hsx]
        exact (h σ (List.mem_cons_self _ _)).1 x hx
      · exact ih (fun σ' hσ' => h σ' (List.mem_cons_of_mem _ hσ')) _ hrest s hs

theorem tuple_same_of_map_eq (σs : List slot_type.{u})
    (h : ∀ σ ∈ σs, lossless σ.conv σ.S σ.same) :
    ∀ t1 t2 : List slot_t.{u}, List.Forall₂ slot_has_type t1 σs →
      List.Forall₂ slot_has_type t2 σs →
      t1.map (fun s => value_or_null (construct s.conv s.value))
        = t2.map (fun s => value_or_null (construct s.conv s.value)) →
      tuple_same σs t1 t2 := by
  induction σs with
  | nil =>
    intro t1 t2 h1 h2 _
    cases h1
    cases h2
    exact True.intro
  | cons σ σs ih =>
    intro t1 t2 h1 h2 heq
    cases h1 with
    | cons hhead1 hrest1 =>
      cases h2 with
      | cons hhead2 hrest2 =>
        simp only [List.map_cons, List.cons.injEq] at heq
        obtain ⟨x, hx, hsx⟩ := hhead1
        obtain ⟨y, hy, hsy⟩ := hhead2
        subst hsx
        subst hsy
        have hl := h σ (List.mem_cons_self _ _)
        exact ⟨⟨x, y, hl.2 x y hx hy
            (value_or_null_eq σ.conv x y (hl.1 x hx) heq.1 (hl.1 y hy)), rfl, rfl⟩,
          ih (fun σ' hσ' => h σ' (List.mem_cons_of_mem _ hσ')) _ _ hrest1 hrest2 heq.2⟩

theorem lossless_tuple (σs : List slot_type.{u})
    (h : ∀ σ ∈ σs, lossless σ.conv σ.S σ.same) :
    lossless tuple.convert (fun t => List.Forall₂ slot_has_type t σs) (tuple_same σs) := by
  have hd : ∀ t : List slot_t.{u}, List.Forall₂ slot_has_type t σs →
      ∀ s ∈ t, construct s.conv s.value = .ok (value_or_null (construct s.conv s.value)) :=
    fun t ht s hs => value_or_null_spec s.conv s.value (tuple_slots_ok σs h t ht s hs)
  refine ⟨fun t ht => ⟨_, tuple_convert_eq _ t (hd t ht) dynamic_t.null⟩, ?_⟩
  intro t1 t2 h1 h2 heq
  unfold construct at heq
  rw [tuple_convert_eq _ t1 (hd t1 h1), tuple_convert_eq _ t2 (hd t2 h2)] at heq
  exact tuple_same_of_map_eq σs h t1 t2 h1 h2 (dynamic_t.array.inj (ok_inj _ _ heq))

/-- C10 fails as stated: two different character buffers of size 2 convert to the same
`String`, because the last character of a buffer is dropped. -/
theorem C10_lossless_counterexample :
    construct (char_array.convert 2) ['a', 'b'] = .ok (dynamic_t.string ['a']) ∧
    construct (char_array.convert 2) ['a', 'c'] = .ok (dynamic_t.string ['a']) ∧
    ['a', 'b'].length = 2 ∧ ['a', 'c'].length = 2 ∧ ['a', 'b'] ≠ ['a', 'c'] := by
  refine ⟨rfl, rfl, rfl, rfl, by decide⟩

/-- C10, amended: every conversion with a matching rule is total, and it is lossless
except for the last character of a character buffer.  The integral rules (width at most
64 bits) and the enumeration rule give a value for every source value and are
injective; a character buffer of size `N ≥ 1` always converts, and two buffers convert
to equal values exactly when they agree on their first `N - 1` characters; the sequence,
native array, tuple and mapping rules give a value whenever the element rules do, and
are injective whenever the element rules are (for a hash-ordered mapping, up to the
order in which its entries are visited); the rule for a mapping to dynamic values is
total and injective. -/
theorem C10_total_and_lossless :
    (∀ w : Nat, w ≤ 64 → lossless unsigned_integral.convert (fun x => x < 2 ^ w) Eq) ∧
    (∀ w : Nat, w ≤ 64 →
      lossless signed_integral.convert
        (fun x => -(2 ^ (w - 1)) ≤ x ∧ x < 2 ^ (w - 1)) Eq) ∧
    (∀ t : integral_type, t.bits ≤ 64 → lossless enumeration.convert t.in_range Eq) ∧
    (∀ N : Nat, 1 ≤ N →
      lossless (char_array.convert N) (fun b => b.length = N)
        (fun b1 b2 => b1.take (N - 1) = b2.take (N - 1)) ∧
      ∀ b1 b2 : List Char, b1.length = N → b2.length = N →
        b1.take (N - 1) = b2.take (N - 1) →
        construct (char_array.convert N) b1 = construct (char_array.convert N) b2) ∧
    (∀ (T : Type u) (conv : rule_t T) (S : T → Prop) (same : T → T → Prop),
      lossless conv S same →
      lossless (vector.convert conv) (fun l => ∀ x ∈ l, S x) (List.Forall₂ same) ∧
      (∀ N : Nat, lossless (native_array.convert N conv)
        (fun l => l.length = N ∧ ∀ x ∈ l, S x) (List.Forall₂ same)) ∧
      lossless (map.convert conv) (fun m => map_invariant m ∧ ∀ e ∈ m, S e.2)
        (List.Forall₂ (fun a b => a.1 = b.1 ∧ same a.2 b.2)) ∧
      lossless (unordered_map.convert conv)
        (fun m => unordered_map_invariant m ∧ ∀ e ∈ m, S e.2) (same_entries same)) ∧
    (∀ σs : List slot_type.{u}, (∀ σ ∈ σs, lossless σ.conv σ.S σ.same) →
      lossless tuple.convert (fun t => List.Forall₂ slot_has_type t σs) (tuple_same σs)) ∧
    lossless map_dynamic.convert (fun _ => True) Eq := by
  refine ⟨lossless_unsigned, lossless_signed, lossless_enumeration, ?_, ?_, lossless_tuple,
    fun m _ => ⟨_, rfl⟩, fun m1 m2 _ _ h => dynamic_t.object.inj (ok_inj _ _ h)⟩
  · intro N hN
    refine ⟨lossless_char_array N hN, ?_⟩
    intro b1 b2 h1 h2 heq
    unfold construct
    rw [char_array_convert_eq N b1 _ hN h1, char_array_convert_eq N b2 _ hN h2, heq]
  · intro T conv S same h
    exact ⟨lossless_vector conv S same h, fun N => lossless_native_array N conv S same h,
      lossless_map conv S same h, lossless_unordered_map conv S same h⟩

/-- C10, witness: two sequences of sequences of unsigned 8-bit integers that convert to
equal values are equal element by element. -/
theorem C10_total_and_lossless_witness :
    lossless (vector.convert (vector.convert unsigned_integral.convert))
      (fun l => ∀ x ∈ l, ∀ y ∈ x, y < 2 ^ 8) (List.Forall₂ (List.Forall₂ Eq)) :=
  (C10_total_and_lossless.2.2.2.2.1 (List Nat) (vector.convert unsigned_integral.convert)
    (fun l => ∀ y ∈ l, y < 2 ^ 8) (List.Forall₂ Eq)
    ((C10_total_and_lossless.2.2.2.2.1 Nat unsigned_integral.convert (fun x => x < 2 ^ 8) Eq
      (C10_total_and_lossless.{0}.1 8 (by decide))).1)).1

/-! ## Direct transfer and replacement of the target -/

/-- C11: converting a string-keyed mapping whose values are dynamic values is a direct
transfer: for both bindings the result is an `Object` whose payload is the source
mapping itself, whatever dynamic values it holds (`Null` and `Bool` included) and
whatever the prior state of the target. -/
theorem C11_map_dynamic_transfer (m : object_t) (to_ : dynamic_t) :
    map_dynamic.convert m to_ = .ok (dynamic_t.object m) ∧
    (∃ rest : object_t, map_dynamic.convert_move m to_ = .ok (dynamic_t.object m, rest)) ∧
    construct map_dynamic.convert m = .ok (dynamic_t.object m) ∧
    (dynamic_t.object m).active_kind = VariantKind.Object ∧
    map_dynamic.convert [(['k'], dynamic_t.null), (['l'], dynamic_t.bool true)] to_
      = .ok (dynamic_t.object [(['k'], dynamic_t.null), (['l'], dynamic_t.bool true)]) :=
  ⟨rfl, ⟨[], rfl⟩, rfl, rfl, rfl⟩

/-- C12: every rule fully replaces the target: for any two prior states of the target
the result of `convert` is the same, for both bindings of every rule; converting a
floating-point value into a target that holds an `Array` leaves a `Double` and nothing
of the array. -/
theorem C12_target_replaced (to1 to2 : dynamic_t) :
    (∀ x : Nat, unsigned_integral.convert x to1 = unsigned_integral.convert x to2) ∧
    (∀ x : Int, signed_integral.convert x to1 = signed_integral.convert x to2) ∧
    (∀ x : Int, enumeration.convert x to1 = enumeration.convert x to2) ∧
    (∀ (From : Type u) (to_double : From → double_t) (x : From),
      floating_point.convert to_double x to1 = floating_point.convert to_double x to2 ∧
      floating_point.convert to_double x (dynamic_t.array [dynamic_t.int 1, dynamic_t.null])
        = .ok (dynamic_t.double (to_double x))) ∧
    (∀ (N : Nat) (b : List Char), char_array.convert N b to1 = char_array.convert N b to2) ∧
    (∀ (T : Type u) (conv : rule_t T) (mconv : move_rule_t T),
      (∀ from_ : List T,
        vector.convert conv from_ to1 = vector.convert conv from_ to2 ∧
        vector.convert_move mconv from_ to1 = vector.convert_move mconv from_ to2) ∧
      (∀ (N : Nat) (from_ : List T),
        native_array.convert N conv from_ to1 = native_array.convert N conv from_ to2 ∧
        native_array.convert_move N mconv from_ to1
          = native_array.convert_move N mconv from_ to2) ∧
      (∀ from_ : List (string_t × T),
        map.convert conv from_ to1 = map.convert conv from_ to2 ∧
        map.convert_move mconv from_ to1 = map.convert_move mconv from_ to2 ∧
        unordered_map.convert conv from_ to1 = unordered_map.convert conv from_ to2 ∧
        unordered_map.convert_move mconv from_ to1
          = unordered_map.convert_move mconv from_ to2)) ∧
    (∀ from_ : List slot_t.{u}, tuple.convert from_ to1 = tuple.convert from_ to2) ∧
    (∀ from_ : List owned_slot_t.{u},
      tuple.convert_move from_ to1 = tuple.convert_move from_ to2) ∧
    (∀ m : object_t,
      map_dynamic.convert m to1 = map_dynamic.convert m to2 ∧
      map_dynamic.convert_move m to1 = map_dynamic.convert_move m to2) :=
  ⟨fun _ => rfl, fun _ => rfl, fun _ => rfl, fun _ _ _ => ⟨rfl, rfl⟩, fun _ _ => rfl,
    fun _ _ _ => ⟨fun _ => ⟨rfl, rfl⟩, fun _ _ => ⟨rfl, rfl⟩, fun _ => ⟨rfl, rfl, rfl, rfl⟩⟩,
    fun _ => rfl, fun _ => rfl, fun _ => ⟨rfl, rfl⟩⟩

/-! ## The variants that the rules produce -/

theorem bind_eq_ok {α β : Type} (first : Except Fault α) (next : α → Except Fault β)
    (out : β) (h : (first >>= next) = .ok out) :
    ∃ mid, next mid = .ok out ∧ first = .ok mid := by
  cases first with
  | error e => cases h
  | ok mid => exact ⟨mid, h, rfl⟩

theorem vector_convert_kind {T : Type u} (conv : rule_t T) (from_ : List T)
    (to_ d : dynamic_t) (h : vector.convert conv from_ to_ = .ok d) :
    d.active_kind = VariantKind.Array := by
  unfold vector.convert at h
  simp only [dynamic_t.assign, dynamic_t.as_array, bind_ok] at h
  obtain ⟨a, ha, _⟩ := bind_eq_ok _ _ _ h
  cases ha
  rfl

theorem native_array_convert_kind {T : Type u} (N : Nat) (conv : rule_t T) (from_ : List T)
    (to_ d : dynamic_t) (h : native_array.convert N conv from_ to_ = .ok d) :
    d.active_kind = VariantKind.Array := by
  unfold native_array.convert at h
  simp only [dynamic_t.assign, dynamic_t.as_array, bind_ok] at h
  obtain ⟨a, ha, _⟩ := bind_eq_ok _ _ _ h
  cases ha
  rfl

theorem tuple_convert_kind (from_ : List slot_t.{u}) (to_ d : dynamic_t)
    (h : tuple.convert from_ to_ = .ok d) : d.active_kind = VariantKind.Array := by
  unfold tuple.convert at h
  simp only [dynamic_t.assign, dynamic_t.as_array, bind_ok] at h
  obtain ⟨a, ha, _⟩ := bind_eq_ok _ _ _ h
  cases ha
  rfl

theorem map_convert_kind {T : Type u} (conv : rule_t T) (from_ : List (string_t × T))
    (to_ d : dynamic_t) (h : map.convert conv from_ to_ = .ok d) :
    d.active_kind = VariantKind.Object := by
  unfold map.convert at h
  simp only [dynamic_t.assign, dynamic_t.as_object, bind_ok] at h
  obtain ⟨a, ha, _⟩ := bind_eq_ok _ _ _ h
  cases ha
  rfl

theorem unordered_map_convert_kind {T : Type u} (conv : rule_t T)
    (from_ : List (string_t × T)) (to_ d : dynamic_t)
    (h : unordered_map.convert conv from_ to_ = .ok d) :
    d.active_kind = VariantKind.Object := by
  unfold unordered_map.convert at h
  simp only [dynamic_t.assign, dynamic_t.as_object, bind_ok] at h
  obtain ⟨a, ha, _⟩ := bind_eq_ok _ _ _ h
  cases ha
  rfl

theorem char_array_convert_kind (N : Nat) (b : List Char) (to_ d : dynamic_t)
    (h : char_array.convert N b to_ = .ok d) : d.active_kind = VariantKind.String := by
  unfold char_array.convert at h
  simp only [dynamic_t.assign, dynamic_t.as_string, bind_ok] at h
  obtain ⟨a, ha, _⟩ := bind_eq_ok _ _ _ h
  cases ha
  rfl

theorem vector_convert_move_kind {T : Type u} (mconv : move_rule_t T) (from_ : List T)
    (to_ d : dynamic_t) (r : List T) (h : vector.convert_move mconv from_ to_ = .ok (d, r)) :
    d.active_kind = VariantKind.Array := by
  unfold vector.convert_move at h
  simp only [dynamic_t.assign, dynamic_t.as_array] at h
  split at h
  · cases h
    rfl
  · cases h

theorem native_array_convert_move_kind {T : Type u} (N : Nat) (mconv : move_rule_t T)
    (from_ : List T) (to_ d : dynamic_t) (r : List T)
    (h : native_array.convert_move N mconv from_ to_ = .ok (d, r)) :
    d.active_kind = VariantKind.Array := by
  unfold native_array.convert_move at h
  simp only [dynamic_t.assign, dynamic_t.as_array] at h
  split at h
  · cases h
    rfl
  · cases h

theorem tuple_convert_move_kind (from_ : List owned_slot_t.{u}) (to_ d : dynamic_t)
    (r : List owned_slot_t.{u}) (h : tuple.convert_move from_ to_ = .ok (d, r)) :
    d.active_kind = VariantKind.Array := by
  unfold tuple.convert_move at h
  simp only [dynamic_t.assign, dynamic_t.as_array] at h
  split at h
  · cases h
    rfl
  · cases h

theorem map_convert_move_kind {T : Type u} (mconv : move_rule_t T)
    (from_ : List (string_t × T)) (to_ d : dynamic_t) (r : List (string_t × T))
    (h : map.convert_move mconv from_ to_ = .ok (d, r)) :
    d.active_kind = VariantKind.Object := by
  unfold map.convert_move at h
  simp only [dynamic_t.assign, dynamic_t.as_object] at h
  split at h
  · cases h
    rfl
  · cases h

theorem unordered_map_convert_move_kind {T : Type u} (mconv : move_rule_t T)
    (from_ : List (string_t × T)) (to_ d : dynamic_t) (r : List (string_t × T))
    (h : unordered_map.convert_move mconv from_ to_ = .ok (d, r)) :
    d.active_kind = VariantKind.Object := by
  unfold unordered_map.convert_move at h
  simp only [dynamic_t.assign, dynamic_t.as_object] at h
  split at h
  · cases h
    rfl
  · cases h

/-- The entry loop of the key-ordered mapping rule inserts the converted entries one
after the other, whatever the order of the source. -/
theorem map_loop_foldl {T : Type u} (conv : rule_t T) (d : T → dynamic_t)
    (from_ : List (string_t × T)) (hconv : ∀ e ∈ from_, construct conv e.2 = .ok (d e.2)) :
    ∀ init : object_t,
      from_.foldlM
        (fun object it => do pure (object_insert object (← value_type conv it.1 it.2))) init
        = .ok (from_.foldl (fun object e => object_insert object (e.1, d e.2)) init) := by
  induction from_ with
  | nil => intro init; rfl
  | cons e rest ih =>
    intro init
    rw [List.foldlM_cons]
    show ((value_type conv e.1 e.2 >>= fun v => pure (object_insert init v)) >>= _) = _
    rw [value_type_ok conv e.1 e.2 _ (hconv e (List.mem_cons_self _ _)), bind_ok]
    show ((Except.ok (object_insert init (e.1, d e.2)) : Except Fault object_t) >>= _) = _
    rw [bind_ok, ih (fun e' he' => hconv e' (List.mem_cons_of_mem _ he'))]
    rfl

theorem unordered_map_loop_foldl {T : Type u} (conv : rule_t T) (d : T → dynamic_t)
    (from_ : List (string_t × T)) (hconv : ∀ e ∈ from_, construct conv e.2 = .ok (d e.2)) :
    ∀ init : object_t,
      from_.foldlM (fun object it => object_insert_key_value conv object it.1 it.2) init
        = .ok (from_.foldl (fun object e => object_insert object (e.1, d e.2)) init) := by
  induction from_ with
  | nil => intro init; rfl
  | cons e rest ih =>
    intro init
    have hstep : object_insert_key_value conv init e.1 e.2
        = .ok (object_insert init (e.1, d e.2)) := by
      unfold object_insert_key_value
      rw [value_type_ok conv e.1 e.2 _ (hconv e (List.mem_cons_self _ _)), bind_ok]
      rfl
    rw [List.foldlM_cons, hstep, bind_ok, ih (fun e' he' => hconv e' (List.mem_cons_of_mem _ he'))]
    rfl

theorem map_convert_foldl {T : Type u} (conv : rule_t T) (d : T → dynamic_t)
    (from_ : List (string_t × T)) (hconv : ∀ e ∈ from_, construct conv e.2 = .ok (d e.2))
    (to_ : dynamic_t) :
    map.convert conv from_ to_
      = .ok (dynamic_t.object
          (from_.foldl (fun object e => object_insert object (e.1, d e.2)) [])) := by
  unfold map.convert
  simp only [dynamic_t.assign, dynamic_t.as_object, bind_ok]
  rw [map_loop_foldl conv d from_ hconv [], bind_ok]
  rfl

theorem unordered_map_convert_foldl {T : Type u} (conv : rule_t T) (d : T → dynamic_t)
    (from_ : List (string_t × T)) (hconv : ∀ e ∈ from_, construct conv e.2 = .ok (d e.2))
    (to_ : dynamic_t) :
    unordered_map.convert conv from_ to_
      = .ok (dynamic_t.object
          (from_.foldl (fun object e => object_insert object (e.1, d e.2)) [])) := by
  unfold unordered_map.convert
  simp only [dynamic_t.assign, dynamic_t.as_object, bind_ok]
  rw [unordered_map_loop_foldl conv d from_ hconv [], bind_ok]
  rfl

/-- C17: no rule produces `Null` or `Bool`.  The unsigned-integral rule produces
`UInt`, the signed-integral and the enumeration rule `Int`, the floating-point rule
`Double`, the character buffer rule `String`, the sequence, native array and tuple rules
`Array`, the three mapping rules `Object`, for both bindings; the type `bool` matches
the unsigned-integral rule and no other, and `false` and `true` convert to `UInt(0)` and
`UInt(1)`. -/
theorem C17_no_null_no_bool :
    produces unsigned_integral.convert (fun _ => True) VariantKind.UInt ∧
    produces signed_integral.convert (fun _ => True) VariantKind.Int ∧
    produces enumeration.convert (fun _ => True) VariantKind.Int ∧
    (∀ (From : Type u) (to_double : From → double_t),
      produces (floating_point.convert to_double) (fun _ => True) VariantKind.Double) ∧
    (∀ N : Nat, 1 ≤ N →
      produces (char_array.convert N) (fun b => b.length = N) VariantKind.String) ∧
    (∀ (T : Type u) (conv : rule_t T) (mconv : move_rule_t T),
      produces (vector.convert conv) (fun l => ∀ x ∈ l, ∃ v, construct conv x = .ok v)
        VariantKind.Array ∧
      (∀ N : Nat, produces (native_array.convert N conv)
        (fun l => l.length = N ∧ ∀ x ∈ l, ∃ v, construct conv x = .ok v)
        VariantKind.Array) ∧
      produces (map.convert conv) (fun m => ∀ e ∈ m, ∃ v, construct conv e.2 = .ok v)
        VariantKind.Object ∧
      produces (unordered_map.convert conv)
        (fun m => ∀ e ∈ m, ∃ v, construct conv e.2 = .ok v) VariantKind.Object ∧
      produces_move (vector.convert_move mconv) VariantKind.Array ∧
      (∀ N : Nat, produces_move (native_array.convert_move N mconv) VariantKind.Array) ∧
      produces_move (map.convert_move mconv) VariantKind.Object ∧
      produces_move (unordered_map.convert_move mconv) VariantKind.Object) ∧
    produces tuple.convert
      (fun t : List slot_t.{u} => ∀ s ∈ t, ∃ v, construct s.conv s.value = .ok v)
      VariantKind.Array ∧
    produces_move (tuple.convert_move : move_rule_t (List owned_slot_t.{u}))
      VariantKind.Array ∧
    produces map_dynamic.convert (fun _ => True) VariantKind.Object ∧
    produces_move map_dynamic.convert_move VariantKind.Object ∧
    rule_matches rule.unsigned_integral bool_type = true ∧
    (∀ r : rule, rule_matches r bool_type = true → r = rule.unsigned_integral) ∧
    construct unsigned_integral.convert (bool_value false) = .ok (dynamic_t.uint 0) ∧
    construct unsigned_integral.convert (bool_value true) = .ok (dynamic_t.uint 1) ∧
    (∀ b : Bool, construct unsigned_integral.convert (bool_value b)
      ≠ .ok (dynamic_t.bool b)) := by
  refine ⟨⟨?_, fun _ _ _ => ⟨_, rfl⟩⟩, ⟨?_, fun _ _ _ => ⟨_, rfl⟩⟩,
    ⟨?_, fun _ _ _ => ⟨_, rfl⟩⟩, fun From to_double => ⟨?_, fun _ _ _ => ⟨_, rfl⟩⟩, ?_, ?_,
    ⟨tuple_convert_kind, ?_⟩, tuple_convert_move_kind, ⟨?_, fun _ _ _ => ⟨_, rfl⟩⟩, ?_, rfl, ?_,
    rfl, rfl, ?_⟩
  · intro x to_ d h
    cases h
    rfl
  · intro x to_ d h
    cases h
    rfl
  · intro x to_ d h
    cases h
    rfl
  · intro x to_ d h
    cases h
    rfl
  · intro N hN
    exact ⟨char_array_convert_kind N, fun b to_ hb => ⟨_, char_array_convert_eq N b to_ hN hb⟩⟩
  · intro T conv mconv
    refine ⟨⟨vector_convert_kind conv, ?_⟩, fun N => ⟨native_array_convert_kind N conv, ?_⟩,
      ⟨map_convert_kind conv, ?_⟩, ⟨unordered_map_convert_kind conv, ?_⟩,
      vector_convert_move_kind mconv, fun N => native_array_convert_move_kind N mconv,
      map_convert_move_kind mconv, unordered_map_convert_move_kind mconv⟩
    · intro l to_ hl
      exact ⟨_, vector_convert_eq conv _ l
        (fun x hx => value_or_null_spec conv x (hl x hx)) to_⟩
    · intro l to_ hl
      obtain ⟨hlen, hl⟩ := hl
      subst hlen
      exact ⟨_, native_array_convert_eq conv _ l
        (fun x hx => value_or_null_spec conv x (hl x hx)) to_⟩
    · intro m to_ hm
      exact ⟨_, map_convert_foldl conv (fun x => value_or_null (construct conv x)) m
        (fun e he => value_or_null_spec conv e.2 (hm e he)) to_⟩
    · intro m to_ hm
      exact ⟨_, unordered_map_convert_foldl conv (fun x => value_or_null (construct conv x)) m
        (fun e he => value_or_null_spec conv e.2 (hm e he)) to_⟩
  · intro t to_ ht
    exact ⟨_, tuple_convert_eq _ t
      (fun s hs => value_or_null_spec s.conv s.value (ht s hs)) to_⟩
  · intro m to_ d h
    cases h
    rfl
  · intro m to_ d r h
    cases h
    rfl
  · intro r h
    cases r <;> first | rfl | cases h
  · intro b h
    cases b <;> cases h

/-! ## Owned sources -/

theorem by_value_ok {From : Type u} (conv : rule_t From) (x : From) (v : dynamic_t)
    (h : construct conv x = .ok v) : construct_move (by_value conv) x = .ok (v, x) := by
  unfold construct at h
  unfold construct_move by_value
  simp only [h]

theorem emplace_back_move_ok {T : Type u} (mconv : move_rule_t T) (array : array_t) (x r : T)
    (d : dynamic_t) (h : construct_move mconv x = .ok (d, r)) :
    emplace_back_move mconv array x = .ok (array ++ [d], r) := by
  unfold emplace_back_move
  simp only [h]

theorem moved_spec {From : Type u} (mconv : move_rule_t From) (x : From)
    (h : ∃ v r, construct_move mconv x = .ok (v, r)) :
    construct_move mconv x = .ok (moved_value mconv x, moved_from mconv x) := by
  obtain ⟨v, r, hv⟩ := h
  unfold moved_value moved_from
  simp only [hv]

theorem getElem?_moved_state {T : Type u} (r : T → T) (from_ : List T) (k : Nat)
    (hk : k < from_.length) :
    ((from_.take k).map r ++ from_.drop k)[k]? = some from_[k] := by
  have hlen : ((from_.take k).map r).length = k := by
    rw [List.length_map, List.length_take]
    omega
  rw [List.getElem?_append_right (by omega), hlen, Nat.sub_self,
    List.drop_eq_getElem_cons hk]
  simp

theorem set_moved_state {T : Type u} (r : T → T) (from_ : List T) (k : Nat)
    (hk : k < from_.length) (y : T) :
    ((from_.take k).map r ++ from_.drop k).set k y
      = (from_.take k).map r ++ y :: from_.drop (k + 1) := by
  have hlen : ((from_.take k).map r).length = k := by
    rw [List.length_map, List.length_take]
    omega
  rw [List.set_append, hlen, if_neg (by omega), Nat.sub_self,
    List.drop_eq_getElem_cons hk]
  rfl

/-- The element loop of the owned sequence rules, run for the first `k` indices,
appends the values constructed from the first `k` elements and leaves these elements
as the moves leave them; the other elements are untouched. -/
theorem index_loop_emplace_back_move {T : Type u} (mconv : move_rule_t T) (d : T → dynamic_t)
    (r : T → T) (from_ : List T)
    (hm : ∀ x ∈ from_, construct_move mconv x = .ok (d x, r x)) (init : array_t) :
    ∀ k, k ≤ from_.length →
      index_loop k (emplace_back_move_at mconv) (init, from_)
        = .ok (init ++ (from_.take k).map d, (from_.take k).map r ++ from_.drop k) := by
  intro k
  induction k with
  | zero => intro _; simp [index_loop, pure, Except.pure]
  | succ k ih =>
    intro hk
    have hlt : k < from_.length := hk
    rw [index_loop_succ, ih (Nat.le_of_lt hlt)]
    show emplace_back_move_at mconv k _ = _
    unfold emplace_back_move_at subscript
    simp only [getElem?_moved_state r from_ k hlt,
      emplace_back_move_ok mconv _ _ _ _ (hm from_[k] (List.getElem_mem hlt)),
      set_moved_state r from_ k hlt]
    rw [List.take_succ, List.getElem?_eq_getElem hlt]
    simp only [Option.toList, List.map_append, List.map, List.append_assoc, List.singleton_append]

theorem vector_convert_move_eq {T : Type u} (mconv : move_rule_t T) (d : T → dynamic_t)
    (r : T → T) (from_ : List T)
    (hm : ∀ x ∈ from_, construct_move mconv x = .ok (d x, r x)) (to_ : dynamic_t) :
    vector.convert_move mconv from_ to_
      = .ok (dynamic_t.array (from_.map d), from_.map r) := by
  unfold vector.convert_move
  simp only [dynamic_t.assign, dynamic_t.as_array, array_reserve,
    index_loop_emplace_back_move mconv d r from_ hm [] from_.length (Nat.le_refl _),
    List.take_length, List.drop_length, List.append_nil, List.nil_append]

theorem native_array_convert_move_eq {T : Type u} (mconv : move_rule_t T) (d : T → dynamic_t)
    (r : T → T) (from_ : List T)
    (hm : ∀ x ∈ from_, construct_move mconv x = .ok (d x, r x)) (to_ : dynamic_t) :
    native_array.convert_move from_.length mconv from_ to_
      = .ok (dynamic_t.array (from_.map d), from_.map r) := by
  unfold native_array.convert_move
  simp only [dynamic_t.assign, dynamic_t.as_array, array_reserve,
    index_loop_emplace_back_move mconv d r from_ hm [] from_.length (Nat.le_refl _),
    List.take_length, List.drop_length, List.append_nil, List.nil_append]

theorem value_type_move_ok {T : Type u} (mconv : move_rule_t T) (key : string_t) (x r : T)
    (d : dynamic_t) (h : construct_move mconv x = .ok (d, r)) :
    value_type_move mconv key x = .ok ((key, d), r) := by
  unfold value_type_move
  simp only [h]

theorem map_move_loop_eq {T : Type u} (mconv : move_rule_t T) (d : T → dynamic_t)
    (r : T → T) (from_ : List (string_t × T))
    (hm : ∀ e ∈ from_, construct_move mconv e.2 = .ok (d e.2, r e.2)) :
    ∀ (object : object_t) (visited : List (string_t × T)),
      from_.foldlM (map.move_step mconv) (object, visited)
        = .ok (from_.foldl (fun object e => object_insert object (e.1, d e.2)) object,
            visited ++ from_.map (fun e => (e.1, r e.2))) := by
  induction from_ with
  | nil => intro object visited; simp [pure, Except.pure]
  | cons e rest ih =>
    intro object visited
    have hstep : map.move_step mconv (object, visited) e
        = .ok (object_insert object (e.1, d e.2), visited ++ [(e.1, r e.2)]) := by
      unfold map.move_step
      simp only [value_type_move_ok mconv e.1 e.2 _ _ (hm e (List.mem_cons_self _ _))]
    rw [List.foldlM_cons, hstep, bind_ok,
      ih (fun e' he' => hm e' (List.mem_cons_of_mem _ he'))]
    simp

theorem unordered_map_move_loop_eq {T : Type u} (mconv : move_rule_t T) (d : T → dynamic_t)
    (r : T → T) (from_ : List (string_t × T))
    (hm : ∀ e ∈ from_, construct_move mconv e.2 = .ok (d e.2, r e.2)) :
    ∀ (object : object_t) (visited : List (string_t × T)),
      from_.foldlM (unordered_map.move_step mconv) (object, visited)
        = .ok (from_.foldl (fun object e => object_insert object (e.1, d e.2)) object,
            visited ++ from_.map (fun e => (e.1, r e.2))) := by
  induction from_ with
  | nil => intro object visited; simp [pure, Except.pure]
  | cons e rest ih =>
    intro object visited
    have hstep : unordered_map.move_step mconv (object, visited) e
        = .ok (object_insert object (e.1, d e.2), visited ++ [(e.1, r e.2)]) := by
      unfold unordered_map.move_step object_insert_key_value_move
      simp only [value_type_move_ok mconv e.1 e.2 _ _ (hm e (List.mem_cons_self _ _))]
    rw [List.foldlM_cons, hstep, bind_ok,
      ih (fun e' he' => hm e' (List.mem_cons_of_mem _ he'))]
    simp

theorem map_convert_move_eq {T : Type u} (mconv : move_rule_t T) (d : T → dynamic_t)
    (r : T → T) (from_ : List (string_t × T))
    (hm : ∀ e ∈ from_, construct_move mconv e.2 = .ok (d e.2, r e.2)) (to_ : dynamic_t) :
    map.convert_move mconv from_ to_
      = .ok (dynamic_t.object
            (from_.foldl (fun object e => object_insert object (e.1, d e.2)) []),
          from_.map (fun e => (e.1, r e.2))) := by
  unfold map.convert_move
  simp only [dynamic_t.assign, dynamic_t.as_object, map_move_loop_eq mconv d r from_ hm,
    List.nil_append]

theorem unordered_map_convert_move_eq {T : Type u} (mconv : move_rule_t T)
    (d : T → dynamic_t) (r : T → T) (from_ : List (string_t × T))
    (hm : ∀ e ∈ from_, construct_move mconv e.2 = .ok (d e.2, r e.2)) (to_ : dynamic_t) :
    unordered_map.convert_move mconv from_ to_
      = .ok (dynamic_t.object
            (from_.foldl (fun object e => object_insert object (e.1, d e.2)) []),
          from_.map (fun e => (e.1, r e.2))) := by
  unfold unordered_map.convert_move
  simp only [dynamic_t.assign, dynamic_t.as_object,
    unordered_map_move_loop_eq mconv d r from_ hm, List.nil_append]

theorem owned_slot_moved_spec (s : owned_slot_t.{u})
    (h : ∃ v r, construct_move s.mconv s.value = .ok (v, r)) :
    construct_move s.mconv s.value
      = .ok (moved_value s.mconv s.value, s.moved_from.value) :=
  moved_spec s.mconv s.value h

/-- One step of the owned tuple recursion at index `k + 1`, when the first `k` slots
have been moved and the others have not. -/
theorem emplace_back_move_slot_eq (from_ : List owned_slot_t.{u})
    (hm : ∀ s ∈ from_, ∃ v r, construct_move s.mconv s.value = .ok (v, r))
    (k : Nat) (hlt : k < from_.length) (acc : array_t) :
    tuple.emplace_back_move_slot (k + 1)
        (acc, (from_.take k).map owned_slot_t.moved_from ++ from_.drop k)
      = .ok (acc ++ [moved_value from_[k].mconv from_[k].value],
          (from_.take (k + 1)).map owned_slot_t.moved_from ++ from_.drop (k + 1)) := by
  have htake : from_.take (k + 1) = from_.take k ++ [from_[k]] := by
    rw [List.take_succ, List.getElem?_eq_getElem hlt]
    rfl
  unfold tuple.emplace_back_move_slot tuple.get_owned_slot
  simp only [Nat.add_sub_cancel, Nat.succ_ne_zero, if_false,
    getElem?_moved_state owned_slot_t.moved_from from_ k hlt,
    emplace_back_move_ok _ _ _ _ _
      (owned_slot_moved_spec from_[k] (hm _ (List.getElem_mem hlt))),
    set_moved_state owned_slot_t.moved_from from_ k hlt]
  rw [htake]
  simp only [List.map_append, List.map, List.append_assoc, List.singleton_append,
    owned_slot_t.moved_from]

/-! ## The static recursion -/

theorem get_slot_ill_formed (I : Nat) (from_ : List slot_t.{u})
    (h : I = 0 ∨ from_.length < I) : tuple.get_slot I from_ = .error Fault.ill_formed := by
  unfold tuple.get_slot
  by_cases h0 : I = 0
  · simp [h0]
  · have hlen : from_.length ≤ I - 1 := by omega
    simp [h0, List.getElem?_eq_none hlen]

/-- The record of the members entered can be erased: `copy_tuple_to_vector` is the
result of the recursion scheme with the copying step. -/
theorem copy_tuple_to_vector_erase (from_ : List slot_t.{u}) (N : Nat) :
    ∀ (m I : Nat) (to_ : array_t), from_.length + 1 - I ≤ m →
      tuple.copy_tuple_to_vector N I from_ to_
        = (static_recursion N I from_.length (tuple.emplace_back_slot from_) to_).2 := by
  intro m
  induction m with
  | zero =>
    intro I to_ hm
    have h3 : I = 0 ∨ from_.length < I := Or.inr (by omega)
    rw [tuple.copy_tuple_to_vector, static_recursion]
    by_cases h1 : N = 0 ∧ I = 1
    · simp only [h1, and_self, if_true]
    · by_cases h2 : I = N
      · subst h2
        simp only [h1, if_false, if_true, tuple.emplace_back_slot]
      · simp only [h1, h2, h3, if_false, if_true]
        split
        · rename_i s hs
          rw [get_slot_ill_formed I from_ h3] at hs
          cases hs
        · rename_i e hs
          rw [get_slot_ill_formed I from_ h3] at hs
          cases hs
          rfl
  | succ m ih =>
    intro I to_ hm
    rw [tuple.copy_tuple_to_vector, static_recursion]
    by_cases h1 : N = 0 ∧ I = 1
    · simp only [h1, and_self, if_true]
    · by_cases h2 : I = N
      · subst h2
        simp only [h1, if_false, if_true, tuple.emplace_back_slot]
      · by_cases h3 : I = 0 ∨ from_.length < I
        · simp only [h1, h2, h3, if_false, if_true]
          split
          · rename_i s hs
            rw [get_slot_ill_formed I from_ h3] at hs
            cases hs
          · rename_i e hs
            rw [get_slot_ill_formed I from_ h3] at hs
            cases hs
            rfl
        · simp only [h1, h2, h3, if_false]
          unfold tuple.emplace_back_slot
          split
          · rename_i s hs
            simp only [hs]
            split
            · rename_i to2 hto
              simp only [hto]
              exact ih (I + 1) to2 (by omega)
            · rename_i e hto
              simp only [hto]
          · rename_i e hs
            simp only [hs]

theorem emplace_back_move_slot_ill_formed (I : Nat)
    (state : array_t × List owned_slot_t.{u}) (h : I = 0 ∨ state.2.length < I) :
    tuple.emplace_back_move_slot I state = .error Fault.ill_formed := by
  unfold tuple.emplace_back_move_slot tuple.get_owned_slot
  by_cases h0 : I = 0
  · simp [h0]
  · have hlen : state.2.length ≤ I - 1 := by omega
    simp [h0, List.getElem?_eq_none hlen]

theorem emplace_back_move_slot_length (I : Nat) (state next : array_t × List owned_slot_t.{u})
    (h : tuple.emplace_back_move_slot I state = .ok next) :
    next.2.length = state.2.length := by
  unfold tuple.emplace_back_move_slot at h
  split at h
  · split at h
    · cases h
      simp only [List.length_set]
    · cases h
  · cases h

/-- The record of the members entered can be erased: `move_tuple_to_vector` is the
result of the recursion scheme with the moving step. -/
theorem move_tuple_to_vector_erase (N : Nat) :
    ∀ (m I : Nat) (state : array_t × List owned_slot_t.{u}), state.2.length + 1 - I ≤ m →
      tuple.move_tuple_to_vector N I state
        = (static_recursion N I state.2.length tuple.emplace_back_move_slot state).2 := by
  intro m
  induction m with
  | zero =>
    intro I state hm
    have h3 : I = 0 ∨ state.2.length < I := Or.inr (by omega)
    rw [tuple.move_tuple_to_vector, static_recursion]
    by_cases h1 : N = 0 ∧ I = 1
    · simp only [h1, and_self, if_true]
    · by_cases h2 : I = N
      · subst h2
        simp only [h1, if_false, if_true]
      · simp only [h1, h2, h3, if_false, if_true]
        split
        · rename_i next hs
          rw [emplace_back_move_slot_ill_formed I state h3] at hs
          cases hs
        · rename_i e hs
          rw [emplace_back_move_slot_ill_formed I state h3] at hs
          cases hs
          rfl
  | succ m ih =>
    intro I state hm
    rw [tuple.move_tuple_to_vector, static_recursion]
    by_cases h1 : N = 0 ∧ I = 1
    · simp only [h1, and_self, if_true]
    · by_cases h2 : I = N
      · subst h2
        simp only [h1, if_false, if_true]
      · by_cases h3 : I = 0 ∨ state.2.length < I
        · simp only [h1, h2, h3, if_false, if_true]
          split
          · rename_i next hs
            rw [emplace_back_move_slot_ill_formed I state h3] at hs
            cases hs
          · rename_i e hs
            rw [emplace_back_move_slot_ill_formed I state h3] at hs
            cases hs
            rfl
        · simp only [h1, h2, h3, if_false]
          split
          · rename_i next hs
            have hlen := emplace_back_move_slot_length I state next hs
            simp only [hs]
            rw [← hlen]
            exact ih (I + 1) next (by omega)
          · rename_i e hs
            simp only [hs]

/-- When every step succeeds, the recursion started at index `I` enters the primary
template at `I`, ..., `N - 1` and then the specialisation `<N, N>`, and ends in the state
after the last step. -/
theorem static_recursion_run {σ : Type u} (N : Nat) (step : Nat → σ → Except Fault σ)
    (states : Nat → σ) (hstep : ∀ k, k < N → step (k + 1) (states k) = .ok (states (k + 1))) :
    ∀ (m I : Nat), 1 ≤ I → I ≤ N → m = N - I →
      static_recursion N I N step (states (I - 1))
        = ((List.range' I (N - I)).map (specialisation.primary N)
            ++ [specialisation.last N], .ok (states N)) := by
  intro m
  induction m with
  | zero =>
    intro I h1 h2 hm
    have hI : I = N := by omega
    subst hI
    have hne : ¬ (I = 0 ∧ I = 1) := by omega
    have hk := hstep (I - 1) (by omega)
    have hI1 : I - 1 + 1 = I := by omega
    rw [hI1] at hk
    rw [static_recursion]
    simp only [hne, if_false, if_true, hk, Nat.sub_self, List.range'_zero, List.map_nil,
      List.nil_append]
  | succ m ih =>
    intro I h1 h2 hm
    have hne : ¬ (N = 0 ∧ I = 1) := by omega
    have hne2 : ¬ (I = N) := by omega
    have hne3 : ¬ (I = 0 ∨ N < I) := by omega
    have hk := hstep (I - 1) (by omega)
    have hI1 : I - 1 + 1 = I := by omega
    rw [hI1] at hk
    have hrest := ih (I + 1) (by omega) (by omega) (by omega)
    rw [Nat.add_sub_cancel] at hrest
    rw [static_recursion]
    simp only [hne, hne2, hne3, if_false, hk, hrest]
    have hN : N - I = (N - (I + 1)) + 1 := by omega
    rw [hN, List.range'_succ]
    simp

/-- Whatever the steps do, the recursion started at an index `I` between `1` and `N`
only enters members whose index is between `I` and `N`. -/
theorem static_recursion_index_bound {σ : Type u} (N : Nat)
    (step : Nat → σ → Except Fault σ) :
    ∀ (m I : Nat) (state : σ), 1 ≤ I → I ≤ N → m = N - I →
      ∀ sp ∈ (static_recursion N I N step state).1, I ≤ sp.index ∧ sp.index ≤ N := by
  intro m
  induction m with
  | zero =>
    intro I state h1 h2 hm sp hsp
    have hI : I = N := by omega
    subst hI
    have hne : ¬ (I = 0 ∧ I = 1) := by omega
    rw [static_recursion] at hsp
    simp only [hne, if_false, if_true, List.mem_singleton] at hsp
    subst hsp
    exact ⟨Nat.le_refl _, Nat.le_refl _⟩
  | succ m ih =>
    intro I state h1 h2 hm sp hsp
    have hne : ¬ (N = 0 ∧ I = 1) := by omega
    have hne2 : ¬ (I = N) := by omega
    have hne3 : ¬ (I = 0 ∨ N < I) := by omega
    rw [static_recursion] at hsp
    simp only [hne, hne2, hne3, if_false] at hsp
    split at hsp
    · rename_i next hnext
      simp only [List.mem_cons] at hsp
      rcases hsp with hsp | hsp
      · subst hsp
        exact ⟨Nat.le_refl _, h2⟩
      · have := ih (I + 1) next (by omega) (by omega) (by omega) sp hsp
        exact ⟨by omega, this.2⟩
    · simp only [List.mem_singleton] at hsp
      subst hsp
      exact ⟨Nat.le_refl _, h2⟩

theorem static_recursion_empty {σ : Type u} (size : Nat) (step : Nat → σ → Except Fault σ)
    (state : σ) :
    static_recursion 0 1 size step state = ([specialisation.empty], .ok state) := by
  rw [static_recursion]
  simp

theorem move_tuple_to_vector_zero (state : array_t × List owned_slot_t.{u}) :
    tuple.move_tuple_to_vector 0 1 state = .ok state := by
  rw [tuple.move_tuple_to_vector]
  simp

/-- The owned tuple recursion started at index `1` appends the values constructed from
all slots, in order, and leaves every slot as its move leaves it. -/
theorem move_tuple_to_vector_eq (from_ : List owned_slot_t.{u})
    (hm : ∀ s ∈ from_, ∃ v r, construct_move s.mconv s.value = .ok (v, r))
    (hpos : 1 ≤ from_.length) (acc : array_t) :
    tuple.move_tuple_to_vector from_.length 1 (acc, from_)
      = .ok (acc ++ from_.map (fun s => moved_value s.mconv s.value),
          from_.map owned_slot_t.moved_from) := by
  have hrun := static_recursion_run from_.length tuple.emplace_back_move_slot
    (fun k => (acc ++ (from_.take k).map (fun s => moved_value s.mconv s.value),
      (from_.take k).map owned_slot_t.moved_from ++ from_.drop k))
    (by
      intro k hk
      have htake : from_.take (k + 1) = from_.take k ++ [from_[k]] := by
        rw [List.take_succ, List.getElem?_eq_getElem hk]
        rfl
      show tuple.emplace_back_move_slot (k + 1) _ = _
      rw [emplace_back_move_slot_eq from_ hm k hk]
      simp only [htake, List.map_append, List.map, List.append_assoc])
    (from_.length - 1) 1 (Nat.le_refl 1) hpos rfl
  rw [move_tuple_to_vector_erase from_.length (from_.length + 1) 1 (acc, from_)
    (by simp)]
  simp only [Nat.sub_self, List.take_zero, List.map_nil, List.append_nil, List.drop_zero,
    List.nil_append, List.take_length, List.drop_length] at hrun
  rw [hrun]

theorem tuple_convert_move_eq (from_ : List owned_slot_t.{u})
    (hm : ∀ s ∈ from_, ∃ v r, construct_move s.mconv s.value = .ok (v, r))
    (to_ : dynamic_t) :
    tuple.convert_move from_ to_
      = .ok (dynamic_t.array (from_.map (fun s => moved_value s.mconv s.value)),
          from_.map owned_slot_t.moved_from) := by
  unfold tuple.convert_move
  simp only [dynamic_t.assign, dynamic_t.as_array, array_reserve]
  rcases Nat.eq_zero_or_pos from_.length with h0 | hpos
  · have hnil : from_ = [] := List.length_eq_zero.mp h0
    subst hnil
    simp only [List.length_nil, move_tuple_to_vector_zero, List.map_nil]
  · simp only [move_tuple_to_vector_eq from_ hm hpos [], List.nil_append]

/-! ## Moving conversions -/

theorem bindings_agree_values {From : Type u} (conv : rule_t From) (mconv : move_rule_t From)
    (S : From → Prop) (h : bindings_agree conv mconv S) (x : From) (hx : S x) :
    construct_move mconv x = .ok (moved_value mconv x, moved_from mconv x) ∧
    construct conv x = .ok (moved_value mconv x) := by
  obtain ⟨v, r, hm, hc⟩ := h x hx
  refine ⟨moved_spec mconv x ⟨v, r, hm⟩, ?_⟩
  rw [hc]
  unfold moved_value
  simp only [hm]

/-- C13 fails as stated: the moving conversion of a sequence that holds the sequence
`[1, 2]` of signed integers leaves that element as `[1, 2]`, not emptied, and the moving
conversion of a sequence of signed integers leaves the integers in place (they are
copied). -/
theorem C13_owned_sequence_counterexample :
    vector.convert_move (vector.convert_move (by_value signed_integral.convert)) [[1, 2]]
        dynamic_t.null
      = .ok (dynamic_t.array [dynamic_t.array [dynamic_t.int 1, dynamic_t.int 2]], [[1, 2]]) ∧
    ([1, 2] : List Int) ≠ [] ∧
    vector.convert_move (by_value signed_integral.convert) [7] dynamic_t.null
      = .ok (dynamic_t.array [dynamic_t.int 7], [7]) := by
  refine ⟨rfl, by decide, rfl⟩

/-- C13, amended: the moving conversion of an owned sequence hands every element
exactly once, in index order, to the owned binding of the element rule: the target is an
`Array` of the length of the source whose `i`-th element is the value constructed from
the original `i`-th element, and the source keeps its length, its `i`-th element being
left as that one move leaves it.  An element that is a mapping to dynamic values is
left empty; a signed integer is left unchanged. -/
theorem C13_owned_sequence {T : Type u} (mconv : move_rule_t T) (from_ : List T)
    (to_ : dynamic_t) (hm : ∀ x ∈ from_, ∃ v r, construct_move mconv x = .ok (v, r)) :
    (∃ (array : array_t) (after : List T),
      vector.convert_move mconv from_ to_ = .ok (dynamic_t.array array, after) ∧
      native_array.convert_move from_.length mconv from_ to_
        = .ok (dynamic_t.array array, after) ∧
      array.length = from_.length ∧
      after.length = from_.length ∧
      ∀ (i : Nat) (hi : i < from_.length) (ha : i < array.length) (hr : i < after.length),
        construct_move mconv from_[i] = .ok (array[i], after[i])) ∧
    (∀ ms : List object_t,
      vector.convert_move map_dynamic.convert_move ms to_
        = .ok (dynamic_t.array (ms.map dynamic_t.object), ms.map (fun _ => []))) ∧
    (∀ xs : List Int,
      vector.convert_move (by_value signed_integral.convert) xs to_
        = .ok (dynamic_t.array (xs.map (fun x => dynamic_t.int (dynamic_t.int_t x))), xs)) := by
  have hd : ∀ x ∈ from_,
      construct_move mconv x = .ok (moved_value mconv x, moved_from mconv x) :=
    fun x hx => moved_spec mconv x (hm x hx)
  refine ⟨⟨from_.map (moved_value mconv), from_.map (moved_from mconv),
    vector_convert_move_eq mconv _ _ from_ hd to_,
    native_array_convert_move_eq mconv _ _ from_ hd to_,
    List.length_map _ _, List.length_map _ _, ?_⟩, ?_, ?_⟩
  · intro i hi ha hr
    rw [List.getElem_map, List.getElem_map]
    exact hd _ (List.getElem_mem hi)
  · intro ms
    exact vector_convert_move_eq map_dynamic.convert_move dynamic_t.object (fun _ => []) ms
      (fun _ _ => rfl) to_
  · intro xs
    have h := vector_convert_move_eq (by_value signed_integral.convert)
      (fun x => dynamic_t.int (dynamic_t.int_t x)) (fun x => x) xs (fun _ _ => rfl) to_
    rw [h, List.map_id']

/-- C13, witness: an owned sequence of two mappings to dynamic values. -/
theorem C13_owned_sequence_witness :
    ∃ (array : array_t) (after : List object_t),
      vector.convert_move map_dynamic.convert_move
          [[(['a'], dynamic_t.int 1)], [(['b'], dynamic_t.null)]] dynamic_t.null
        = .ok (dynamic_t.array array, after) ∧
      array.length = 2 ∧ after.length = 2 := by
  obtain ⟨array, after, h1, _, h2, h3, _⟩ := (C13_owned_sequence map_dynamic.convert_move
    [[(['a'], dynamic_t.int 1)], [(['b'], dynamic_t.null)]] dynamic_t.null
    (fun x _ => ⟨dynamic_t.object x, [], rfl⟩)).1
  exact ⟨array, after, h1, h2, h3⟩

theorem bindings_agree_by_value {From : Type u} (conv : rule_t From) (S : From → Prop)
    (h : ∀ x, S x → ∃ v, construct conv x = .ok v) : bindings_agree conv (by_value conv) S := by
  intro x hx
  obtain ⟨v, hv⟩ := h x hx
  exact ⟨v, x, by_value_ok conv x v hv, hv⟩

theorem bindings_agree_vector {T : Type u} (conv : rule_t T) (mconv : move_rule_t T)
    (S : T → Prop) (h : bindings_agree conv mconv S) :
    bindings_agree (vector.convert conv) (vector.convert_move mconv)
      (fun l => ∀ x ∈ l, S x) := by
  intro l hl
  exact ⟨_, _, vector_convert_move_eq mconv (moved_value mconv) (moved_from mconv) l
      (fun x hx => (bindings_agree_values conv mconv S h x (hl x hx)).1) dynamic_t.null,
    vector_convert_eq conv (moved_value mconv) l
      (fun x hx => (bindings_agree_values conv mconv S h x (hl x hx)).2) dynamic_t.null⟩

theorem bindings_agree_native_array {T : Type u} (N : Nat) (conv : rule_t T)
    (mconv : move_rule_t T) (S : T → Prop) (h : bindings_agree conv mconv S) :
    bindings_agree (native_array.convert N conv) (native_array.convert_move N mconv)
      (fun l => l.length = N ∧ ∀ x ∈ l, S x) := by
  intro l hl
  obtain ⟨hlen, hl⟩ := hl
  subst hlen
  exact ⟨_, _, native_array_convert_move_eq mconv (moved_value mconv) (moved_from mconv) l
      (fun x hx => (bindings_agree_values conv mconv S h x (hl x hx)).1) dynamic_t.null,
    native_array_convert_eq conv (moved_value mconv) l
      (fun x hx => (bindings_agree_values conv mconv S h x (hl x hx)).2) dynamic_t.null⟩

theorem bindings_agree_map {T : Type u} (conv : rule_t T) (mconv : move_rule_t T)
    (S : T → Prop) (h : bindings_agree conv mconv S) :
    bindings_agree (map.convert conv) (map.convert_move mconv)
      (fun m => ∀ e ∈ m, S e.2) := by
  intro m hm
  exact ⟨_, _, map_convert_move_eq mconv (moved_value mconv) (moved_from mconv) m
      (fun e he => (bindings_agree_values conv mconv S h e.2 (hm e he)).1) dynamic_t.null,
    map_convert_foldl conv (moved_value mconv) m
      (fun e he => (bindings_agree_values conv mconv S h e.2 (hm e he)).2) dynamic_t.null⟩

theorem bindings_agree_unordered_map {T : Type u} (conv : rule_t T) (mconv : move_rule_t T)
    (S : T → Prop) (h : bindings_agree conv mconv S) :
    bindings_agree (unordered_map.convert conv) (unordered_map.convert_move mconv)
      (fun m => ∀ e ∈ m, S e.2) := by
  intro m hm
  exact ⟨_, _, unordered_map_convert_move_eq mconv (moved_value mconv) (moved_from mconv) m
      (fun e he => (bindings_agree_values conv mconv S h e.2 (hm e he)).1) dynamic_t.null,
    unordered_map_convert_foldl conv (moved_value mconv) m
      (fun e he => (bindings_agree_values conv mconv S h e.2 (hm e he)).2) dynamic_t.null⟩

theorem bindings_agree_tuple (from_ : List owned_slot_t.{u})
    (h : ∀ s ∈ from_, ∃ (v : dynamic_t) (r : s.T),
      construct_move s.mconv s.value = .ok (v, r) ∧ construct s.conv s.value = .ok v) :
    ∃ (v : dynamic_t) (r : List owned_slot_t.{u}),
      construct_move tuple.convert_move from_ = .ok (v, r) ∧
      construct tuple.convert (from_.map owned_slot_t.borrow) = .ok v := by
  have hm : ∀ s ∈ from_, ∃ v r, construct_move s.mconv s.value = .ok (v, r) := by
    intro s hs
    obtain ⟨v, r, hv, _⟩ := h s hs
    exact ⟨v, r, hv⟩
  have hc : ∀ t ∈ from_.map owned_slot_t.borrow,
      construct t.conv t.value = .ok (value_or_null (construct t.conv t.value)) := by
    intro t ht
    obtain ⟨s, hs, hst⟩ := List.mem_map.mp ht
    subst hst
    obtain ⟨v, r, _, hv⟩ := h s hs
    exact value_or_null_spec s.conv s.value ⟨v, hv⟩
  refine ⟨_, _, tuple_convert_move_eq from_ hm dynamic_t.null, ?_⟩
  unfold construct
  rw [tuple_convert_eq _ _ hc dynamic_t.null, List.map_map]
  congr 2
  apply List.map_congr_left
  intro s hs
  obtain ⟨v, r, hmv, hv⟩ := h s hs
  show value_or_null (construct s.conv s.value) = moved_value s.mconv s.value
  rw [hv]
  unfold moved_value
  simp only [hmv]
  rfl

/-- C16: the owned binding and the borrowed binding of every compound rule give the
same dynamic value: for sequences, native arrays, key-ordered and hash-ordered mappings
whenever the two bindings of the element rule agree on the elements, for tuples
whenever the two bindings of every slot agree, for mappings to dynamic values always;
the scalar rules have a single binding, which is used for both. -/
theorem C16_bindings_agree :
    (∀ (From : Type u) (conv : rule_t From) (S : From → Prop),
      (∀ x, S x → ∃ v, construct conv x = .ok v) → bindings_agree conv (by_value conv) S) ∧
    bindings_agree map_dynamic.convert map_dynamic.convert_move (fun _ => True) ∧
    (∀ (T : Type u) (conv : rule_t T) (mconv : move_rule_t T) (S : T → Prop),
      bindings_agree conv mconv S →
      bindings_agree (vector.convert conv) (vector.convert_move mconv)
        (fun l => ∀ x ∈ l, S x) ∧
      (∀ N : Nat, bindings_agree (native_array.convert N conv)
        (native_array.convert_move N mconv) (fun l => l.length = N ∧ ∀ x ∈ l, S x)) ∧
      bindings_agree (map.convert conv) (map.convert_move mconv)
        (fun m => ∀ e ∈ m, S e.2) ∧
      bindings_agree (unordered_map.convert conv) (unordered_map.convert_move mconv)
        (fun m => ∀ e ∈ m, S e.2)) ∧
    (∀ from_ : List owned_slot_t.{u},
      (∀ s ∈ from_, ∃ (v : dynamic_t) (r : s.T),
        construct_move s.mconv s.value = .ok (v, r) ∧ construct s.conv s.value = .ok v) →
      ∃ (v : dynamic_t) (r : List owned_slot_t.{u}),
        construct_move tuple.convert_move from_ = .ok (v, r) ∧
        construct tuple.convert (from_.map owned_slot_t.borrow) = .ok v) :=
  ⟨fun _ => bindings_agree_by_value, fun m _ => ⟨dynamic_t.object m, [], rfl, rfl⟩,
    fun _ conv mconv S h => ⟨bindings_agree_vector conv mconv S h,
      fun N => bindings_agree_native_array N conv mconv S h,
      bindings_agree_map conv mconv S h, bindings_agree_unordered_map conv mconv S h⟩,
    bindings_agree_tuple⟩

/-- C16, witness: a hash-ordered mapping whose values are sequences of signed
integers; the owned and the borrowed conversion give the same value. -/
theorem C16_bindings_agree_witness :
    ∃ (v : dynamic_t) (r : List (string_t × List Int)),
      construct_move
          (unordered_map.convert_move (vector.convert_move (by_value signed_integral.convert)))
          [(['b'], [2, 3]), (['a'], [1])] = .ok (v, r) ∧
      construct (unordered_map.convert (vector.convert signed_integral.convert))
          [(['b'], [2, 3]), (['a'], [1])] = .ok v :=
  (C16_bindings_agree.{0}.2.2.1 (List Int) (vector.convert signed_integral.convert)
    (vector.convert_move (by_value signed_integral.convert)) (fun l => ∀ x ∈ l, True)
    ((C16_bindings_agree.{0}.2.2.1 Int signed_integral.convert
      (by_value signed_integral.convert) (fun _ => True)
      (C16_bindings_agree.{0}.1 Int signed_integral.convert (fun _ => True)
        (fun _ _ => ⟨_, rfl⟩))).1)).2.2.2
    [(['b'], [2, 3]), (['a'], [1])] (fun _ _ _ _ => True.intro)

/-! ## Termination of the static recursion -/

theorem emplace_back_slot_eq (d : slot_t.{u} → dynamic_t) (from_ : List slot_t.{u})
    (hconv : ∀ s ∈ from_, construct s.conv s.value = .ok (d s)) (k : Nat)
    (hk : k < from_.length) (acc : array_t) :
    tuple.emplace_back_slot from_ (k + 1) (acc ++ (from_.take k).map d)
      = .ok (acc ++ (from_.take (k + 1)).map d) := by
  have htake : from_.take (k + 1) = from_.take k ++ [from_[k]] := by
    rw [List.take_succ, List.getElem?_eq_getElem hk]
    rfl
  unfold tuple.emplace_back_slot tuple.get_slot
  simp only [Nat.add_sub_cancel, Nat.succ_ne_zero, if_false, List.getElem?_eq_getElem hk,
    emplace_back_ok _ _ _ _ (hconv _ (List.getElem_mem hk)), htake, List.map_append, List.map,
    List.append_assoc]

/-- With convertible slots the copying recursion started at index `1` enters the
primary template at `1`, ..., `N - 1`, then the specialisation `<N, N>`, and appends the
constructed values of all slots. -/
theorem copy_static_recursion_run (d : slot_t.{u} → dynamic_t) (from_ : List slot_t.{u})
    (hconv : ∀ s ∈ from_, construct s.conv s.value = .ok (d s)) (hpos : 1 ≤ from_.length)
    (to_ : array_t) :
    static_recursion from_.length 1 from_.length (tuple.emplace_back_slot from_) to_
      = ((List.range' 1 (from_.length - 1)).map (specialisation.primary from_.length)
          ++ [specialisation.last from_.length], .ok (to_ ++ from_.map d)) := by
  have hrun := static_recursion_run from_.length (tuple.emplace_back_slot from_)
    (fun k => to_ ++ (from_.take k).map d)
    (fun k hk => emplace_back_slot_eq d from_ hconv k hk to_)
    (from_.length - 1) 1 (Nat.le_refl 1) hpos rfl
  simp only [Nat.sub_self, List.take_zero, List.map_nil, List.append_nil,
    List.take_length] at hrun
  exact hrun

/-- The same for the moving recursion, which also leaves every slot as its move
leaves it. -/
theorem move_static_recursion_run (from_ : List owned_slot_t.{u})
    (hm : ∀ s ∈ from_, ∃ v r, construct_move s.mconv s.value = .ok (v, r))
    (hpos : 1 ≤ from_.length) (to_ : array_t) :
    static_recursion from_.length 1 from_.length tuple.emplace_back_move_slot (to_, from_)
      = ((List.range' 1 (from_.length - 1)).map (specialisation.primary from_.length)
          ++ [specialisation.last from_.length],
        .ok (to_ ++ from_.map (fun s => moved_value s.mconv s.value),
          from_.map owned_slot_t.moved_from)) := by
  have hrun := static_recursion_run from_.length tuple.emplace_back_move_slot
    (fun k => (to_ ++ (from_.take k).map (fun s => moved_value s.mconv s.value),
      (from_.take k).map owned_slot_t.moved_from ++ from_.drop k))
    (by
      intro k hk
      have htake : from_.take (k + 1) = from_.take k ++ [from_[k]] := by
        rw [List.take_succ, List.getElem?_eq_getElem hk]
        rfl
      show tuple.emplace_back_move_slot (k + 1) _ = _
      rw [emplace_back_move_slot_eq from_ hm k hk]
      simp only [htake, List.map_append, List.map, List.append_assoc])
    (from_.length - 1) 1 (Nat.le_refl 1) hpos rfl
  simp only [Nat.sub_self, List.take_zero, List.map_nil, List.append_nil, List.drop_zero,
    List.nil_append, List.take_length, List.drop_length] at hrun
  exact hrun

/-- C15: the static recursion over the slots of a tuple, started at index `1`, always
ends.  `copy_tuple_to_vector` and `move_tuple_to_vector` are the recursion scheme
`static_recursion` with their respective step.  For arity `0` the specialisation
`<0, 1>` is entered and nothing is done; for arity `N ≥ 1` the index of every member
entered lies between `1` and `N`, and when the slots are convertible the primary
template is entered at `1`, ..., `N - 1`, then the specialisation `<N, N>`, and exactly
`N` values have been appended. -/
theorem C15_static_recursion :
    (∀ (from_ : List slot_t.{u}) (N I : Nat) (to_ : array_t),
      tuple.copy_tuple_to_vector N I from_ to_
        = (static_recursion N I from_.length (tuple.emplace_back_slot from_) to_).2) ∧
    (∀ (N I : Nat) (state : array_t × List owned_slot_t.{u}),
      tuple.move_tuple_to_vector N I state
        = (static_recursion N I state.2.length tuple.emplace_back_move_slot state).2) ∧
    (∀ (σ : Type u) (size : Nat) (step : Nat → σ → Except Fault σ) (state : σ),
      static_recursion 0 1 size step state = ([specialisation.empty], .ok state)) ∧
    (∀ (σ : Type u) (N : Nat) (step : Nat → σ → Except Fault σ) (state : σ), 1 ≤ N →
      ∀ sp ∈ (static_recursion N 1 N step state).1, 1 ≤ sp.index ∧ sp.index ≤ N) ∧
    (∀ (from_ : List slot_t.{u}) (to_ : array_t), 1 ≤ from_.length →
      (∀ s ∈ from_, ∃ v, construct s.conv s.value = .ok v) →
      ∃ added : array_t,
        static_recursion from_.length 1 from_.length (tuple.emplace_back_slot from_) to_
          = ((List.range' 1 (from_.length - 1)).map (specialisation.primary from_.length)
              ++ [specialisation.last from_.length], .ok (to_ ++ added)) ∧
        added.length = from_.length) ∧
    (∀ (from_ : List owned_slot_t.{u}) (to_ : array_t), 1 ≤ from_.length →
      (∀ s ∈ from_, ∃ v r, construct_move s.mconv s.value = .ok (v, r)) →
      ∃ (added : array_t) (after : List owned_slot_t.{u}),
        static_recursion from_.length 1 from_.length tuple.emplace_back_move_slot
            (to_, from_)
          = ((List.range' 1 (from_.length - 1)).map (specialisation.primary from_.length)
              ++ [specialisation.last from_.length], .ok (to_ ++ added, after)) ∧
        added.length = from_.length) := by
  refine ⟨?_, ?_, fun _ => static_recursion_empty, ?_, ?_, ?_⟩
  · intro from_ N I to_
    exact copy_tuple_to_vector_erase from_ N (from_.length + 1 - I) I to_ (Nat.le_refl _)
  · intro N I state
    exact move_tuple_to_vector_erase N (state.2.length + 1 - I) I state (Nat.le_refl _)
  · intro σ N step state hN sp hsp
    exact static_recursion_index_bound N step (N - 1) 1 state (Nat.le_refl 1) hN rfl sp hsp
  · intro from_ to_ hpos hconv
    exact ⟨_, copy_static_recursion_run _ from_
      (fun s hs => value_or_null_spec s.conv s.value (hconv s hs)) hpos to_,
      List.length_map _ _⟩
  · intro from_ to_ hpos hm
    exact ⟨_, _, move_static_recursion_run from_ hm hpos to_, List.length_map _ _⟩

/-- C15, witness: the copying recursion over a tuple of three slots enters the primary
template at `1` and `2`, then the specialisation `<3, 3>`. -/
theorem C15_static_recursion_witness :
    ∃ added : array_t,
      static_recursion 3 1 3
          (tuple.emplace_back_slot
            [⟨Int, signed_integral.convert, -5⟩, ⟨Int, signed_integral.convert, 6⟩,
             ⟨Int, signed_integral.convert, 7⟩]) []
        = ([specialisation.primary 3 1, specialisation.primary 3 2, specialisation.last 3],
            .ok ([] ++ added)) ∧
      added.length = 3 :=
  C15_static_recursion.{0}.2.2.2.2.1
    [⟨Int, signed_integral.convert, -5⟩, ⟨Int, signed_integral.convert, 6⟩,
     ⟨Int, signed_integral.convert, 7⟩] [] (by decide)
    (by
      intro s hs
      simp only [List.mem_cons, List.mem_singleton, List.not_mem_nil, or_false] at hs
      rcases hs with rfl | rfl | rfl <;> exact ⟨_, rfl⟩)

/-! ## Where a fault can come from -/

theorem index_loop_zero {σ : Type u} (body : Nat → σ → Except Fault σ) (init : σ) :
    index_loop 0 body init = .ok init := rfl

/-- A loop that keeps an invariant (which may depend on the index reached) ends in a
state that satisfies it, and when it fails, one of its iterations has failed on a state
that satisfies it. -/
theorem index_loop_invariant {σ : Type u} (P : Nat → σ → Prop)
    (body : Nat → σ → Except Fault σ) (init : σ) (hinit : P 0 init) (n : Nat)
    (hbody : ∀ i s s', i < n → P i s → body i s = .ok s' → P (i + 1) s') :
    (∀ s, index_loop n body init = .ok s → P n s) ∧
    (∀ e, index_loop n body init = .error e →
      ∃ i s, i < n ∧ P i s ∧ body i s = .error e) := by
  induction n with
  | zero =>
    constructor
    · intro s h
      rw [index_loop_zero] at h
      cases h
      exact hinit
    · intro e h
      rw [index_loop_zero] at h
      cases h
  | succ n ih =>
    have ih' := ih (fun i s s' hi => hbody i s s' (Nat.lt_succ_of_lt hi))
    constructor
    · intro s h
      rw [index_loop_succ] at h
      cases hl : index_loop n body init with
      | error e0 => rw [hl] at h; cases h
      | ok s0 =>
        rw [hl, bind_ok] at h
        exact hbody n s0 s (Nat.lt_succ_self n) (ih'.1 s0 hl) h
    · intro e h
      rw [index_loop_succ] at h
      cases hl : index_loop n body init with
      | error e0 =>
        rw [hl] at h
        cases h
        obtain ⟨i, s, hi, hs, hb⟩ := ih'.2 e hl
        exact ⟨i, s, Nat.lt_succ_of_lt hi, hs, hb⟩
      | ok s0 =>
        rw [hl, bind_ok] at h
        exact ⟨n, s0, Nat.lt_succ_self n, ih'.1 s0 hl, h⟩

theorem foldlM_error {σ : Type v} {α : Type u} (f : σ → α → Except Fault σ) (e : Fault) :
    ∀ (l : List α) (init : σ), l.foldlM f init = .error e →
      ∃ it ∈ l, ∃ s, f s it = .error e := by
  intro l
  induction l with
  | nil =>
    intro init h
    cases h
  | cons a rest ih =>
    intro init h
    rw [List.foldlM_cons] at h
    cases hf : f init a with
    | error e0 =>
      rw [hf] at h
      cases h
      exact ⟨a, List.mem_cons_self _ _, init, hf⟩
    | ok s0 =>
      rw [hf, bind_ok] at h
      obtain ⟨it, hit, s, hs⟩ := ih s0 h
      exact ⟨it, List.mem_cons_of_mem _ hit, s, hs⟩

theorem emplace_back_error {T : Type u} (conv : rule_t T) (array : array_t) (x : T)
    (e : Fault) (h : emplace_back conv array x = .error e) : construct conv x = .error e := by
  unfold emplace_back at h
  cases hc : construct conv x with
  | error e0 => rw [hc] at h; cases h; rfl
  | ok d => rw [hc, bind_ok] at h; cases h

theorem emplace_back_move_error {T : Type u} (mconv : move_rule_t T) (array : array_t)
    (x : T) (e : Fault) (h : emplace_back_move mconv array x = .error e) :
    construct_move mconv x = .error e := by
  unfold emplace_back_move at h
  split at h
  · cases h
  · rename_i e0 hc
    cases h
    exact hc

theorem value_type_error {T : Type u} (conv : rule_t T) (key : string_t) (x : T) (e : Fault)
    (h : value_type conv key x = .error e) : construct conv x = .error e := by
  unfold value_type at h
  cases hc : construct conv x with
  | error e0 => rw [hc] at h; cases h; rfl
  | ok d => rw [hc, bind_ok] at h; cases h

theorem value_type_move_error {T : Type u} (mconv : move_rule_t T) (key : string_t) (x : T)
    (e : Fault) (h : value_type_move mconv key x = .error e) :
    construct_move mconv x = .error e := by
  unfold value_type_move at h
  split at h
  · cases h
  · rename_i e0 hc
    cases h
    exact hc

theorem bind_eq_error {α β : Type u} (x : Except Fault α) (f : α → Except Fault β)
    (e : Fault) (h : (x >>= f) = .error e) :
    x = .error e ∨ ∃ a, x = .ok a ∧ f a = .error e := by
  cases x with
  | error e0 => cases h; exact Or.inl rfl
  | ok a => exact Or.inr ⟨a, rfl, h⟩

theorem sequence_loop_error {T : Type u} (conv : rule_t T) (from_ : List T) (n : Nat)
    (hn : n ≤ from_.length) (init : array_t) (e : Fault)
    (h : index_loop n
        (fun i array =>
          match subscript from_ i with
          | .ok x => emplace_back conv array x
          | .error e => .error e) init = .error e) :
    ∃ x ∈ from_, construct conv x = .error e := by
  obtain ⟨i, s, hi, _, hb⟩ := (index_loop_invariant (fun _ _ => True) _ init True.intro n
    (fun _ _ _ _ _ _ => True.intro)).2 e h
  have hlt : i < from_.length := Nat.lt_of_lt_of_le hi hn
  simp only [subscript_of_lt from_ i hlt] at hb
  exact ⟨from_[i], List.getElem_mem hlt, emplace_back_error conv s _ e hb⟩

theorem vector_convert_error {T : Type u} (conv : rule_t T) (from_ : List T)
    (to_ : dynamic_t) (e : Fault) (h : vector.convert conv from_ to_ = .error e) :
    ∃ x ∈ from_, construct conv x = .error e := by
  unfold vector.convert at h
  simp only [dynamic_t.assign, dynamic_t.as_array, array_reserve, bind_ok] at h
  rcases bind_eq_error _ _ e h with hl | ⟨a, _, ha⟩
  · exact sequence_loop_error conv from_ from_.length (Nat.le_refl _) [] e hl
  · cases ha

theorem native_array_convert_error {T : Type u} (conv : rule_t T) (from_ : List T)
    (to_ : dynamic_t) (e : Fault)
    (h : native_array.convert from_.length conv from_ to_ = .error e) :
    ∃ x ∈ from_, construct conv x = .error e := by
  unfold native_array.convert at h
  simp only [dynamic_t.assign, dynamic_t.as_array, array_reserve, bind_ok] at h
  rcases bind_eq_error _ _ e h with hl | ⟨a, _, ha⟩
  · exact sequence_loop_error conv from_ from_.length (Nat.le_refl _) [] e hl
  · cases ha

theorem emplace_back_move_at_length {T : Type u} (mconv : move_rule_t T) (i : Nat)
    (state next : array_t × List T) (h : emplace_back_move_at mconv i state = .ok next) :
    next.2.length = state.2.length := by
  unfold emplace_back_move_at at h
  split at h
  · split at h
    · cases h
      simp only [List.length_set]
    · cases h
  · cases h

theorem emplace_back_move_at_set {T : Type u} (mconv : move_rule_t T) (i : Nat)
    (state next : array_t × List T) (h : emplace_back_move_at mconv i state = .ok next) :
    ∃ x, next.2 = state.2.set i x := by
  unfold emplace_back_move_at at h
  split at h
  · split at h
    · cases h
      exact ⟨_, rfl⟩
    · cases h
  · cases h

/-- When the element loop of the owned sequence rules fails, the construction of one
of the elements of the source, not yet touched by the loop, has failed. -/
theorem owned_sequence_loop_error {T : Type u} (mconv : move_rule_t T) (from_ : List T)
    (n : Nat) (hn : n ≤ from_.length) (init : array_t) (e : Fault)
    (h : index_loop n (emplace_back_move_at mconv) (init, from_) = .error e) :
    ∃ x ∈ from_, construct_move mconv x = .error e := by
  obtain ⟨i, s, hi, hs, hb⟩ := (index_loop_invariant
    (fun (k : Nat) (state : array_t × List T) =>
      state.2.length = from_.length ∧ ∀ j, k ≤ j → state.2[j]? = from_[j]?)
    _ (init, from_) ⟨rfl, fun _ _ => rfl⟩ n
    (by
      intro i s s' _ hs hb
      obtain ⟨x, hx⟩ := emplace_back_move_at_set mconv i s s' hb
      refine ⟨by rw [hx, List.length_set]; exact hs.1, ?_⟩
      intro j hj
      rw [hx, List.getElem?_set_ne (by omega)]
      exact hs.2 j (by omega))).2 e h
  have hlt : i < from_.length := Nat.lt_of_lt_of_le hi hn
  have hlt2 : i < s.2.length := by rw [hs.1]; exact hlt
  have hsame : s.2[i] = from_[i] := by
    have h2 := hs.2 i (Nat.le_refl i)
    rw [List.getElem?_eq_getElem hlt2, List.getElem?_eq_getElem hlt] at h2
    exact Option.some.inj h2
  unfold emplace_back_move_at at hb
  simp only [subscript_of_lt s.2 i hlt2] at hb
  split at hb
  · cases hb
  · rename_i e0 he
    cases hb
    refine ⟨from_[i], List.getElem_mem hlt, ?_⟩
    rw [← hsame]
    exact emplace_back_move_error mconv _ _ _ he

theorem vector_convert_move_error {T : Type u} (mconv : move_rule_t T) (from_ : List T)
    (to_ : dynamic_t) (e : Fault) (h : vector.convert_move mconv from_ to_ = .error e) :
    ∃ x ∈ from_, construct_move mconv x = .error e := by
  unfold vector.convert_move at h
  simp only [dynamic_t.assign, dynamic_t.as_array, array_reserve] at h
  split at h
  · cases h
  · rename_i e0 hl
    cases h
    exact owned_sequence_loop_error mconv from_ from_.length (Nat.le_refl _) [] _ hl

theorem native_array_convert_move_error {T : Type u} (mconv : move_rule_t T)
    (from_ : List T) (to_ : dynamic_t) (e : Fault)
    (h : native_array.convert_move from_.length mconv from_ to_ = .error e) :
    ∃ x ∈ from_, construct_move mconv x = .error e := by
  unfold native_array.convert_move at h
  simp only [dynamic_t.assign, dynamic_t.as_array, array_reserve] at h
  split at h
  · cases h
  · rename_i e0 hl
    cases h
    exact owned_sequence_loop_error mconv from_ from_.length (Nat.le_refl _) [] _ hl

theorem map_convert_error {T : Type u} (conv : rule_t T) (from_ : List (string_t × T))
    (to_ : dynamic_t) (e : Fault) (h : map.convert conv from_ to_ = .error e) :
    ∃ it ∈ from_, construct conv it.2 = .error e := by
  unfold map.convert at h
  simp only [dynamic_t.assign, dynamic_t.as_object, bind_ok] at h
  rcases bind_eq_error _ _ e h with hl | ⟨a, _, ha⟩
  · obtain ⟨it, hit, s, hs⟩ := foldlM_error _ e from_ [] hl
    rcases bind_eq_error _ _ e hs with hv | ⟨a, _, ha⟩
    · exact ⟨it, hit, value_type_error conv it.1 it.2 e hv⟩
    · cases ha
  · cases ha

theorem unordered_map_convert_error {T : Type u} (conv : rule_t T)
    (from_ : List (string_t × T)) (to_ : dynamic_t) (e : Fault)
    (h : unordered_map.convert conv from_ to_ = .error e) :
    ∃ it ∈ from_, construct conv it.2 = .error e := by
  unfold unordered_map.convert at h
  simp only [dynamic_t.assign, dynamic_t.as_object, bind_ok] at h
  rcases bind_eq_error _ _ e h with hl | ⟨a, _, ha⟩
  · obtain ⟨it, hit, s, hs⟩ := foldlM_error _ e from_ [] hl
    unfold object_insert_key_value at hs
    rcases bind_eq_error _ _ e hs with hv | ⟨a, _, ha⟩
    · exact ⟨it, hit, value_type_error conv it.1 it.2 e hv⟩
    · cases ha
  · cases ha

theorem map_convert_move_error {T : Type u} (mconv : move_rule_t T)
    (from_ : List (string_t × T)) (to_ : dynamic_t) (e : Fault)
    (h : map.convert_move mconv from_ to_ = .error e) :
    ∃ it ∈ from_, construct_move mconv it.2 = .error e := by
  unfold map.convert_move at h
  simp only [dynamic_t.assign, dynamic_t.as_object] at h
  split at h
  · cases h
  · rename_i e0 hl
    cases h
    obtain ⟨it, hit, s, hs⟩ := foldlM_error _ _ from_ _ hl
    unfold map.move_step at hs
    split at hs
    · cases hs
    · rename_i e1 hv
      cases hs
      exact ⟨it, hit, value_type_move_error mconv it.1 it.2 _ hv⟩

theorem unordered_map_convert_move_error {T : Type u} (mconv : move_rule_t T)
    (from_ : List (string_t × T)) (to_ : dynamic_t) (e : Fault)
    (h : unordered_map.convert_move mconv from_ to_ = .error e) :
    ∃ it ∈ from_, construct_move mconv it.2 = .error e := by
  unfold unordered_map.convert_move at h
  simp only [dynamic_t.assign, dynamic_t.as_object] at h
  split at h
  · cases h
  · rename_i e0 hl
    cases h
    obtain ⟨it, hit, s, hs⟩ := foldlM_error _ _ from_ _ hl
    unfold unordered_map.move_step object_insert_key_value_move at hs
    split at hs
    · cases hs
    · rename_i e1 hv
      cases hs
      split at hv
      · cases hv
      · rename_i e2 hv2
        cases hv
        exact ⟨it, hit, value_type_move_error mconv it.1 it.2 _ hv2⟩

/-- When the recursion started at an index between `1` and `N` fails, one of its steps
has failed, on a state that satisfies the invariant kept by the steps (which may depend
on the index reached). -/
theorem static_recursion_error {σ : Type u} (P : Nat → σ → Prop) (N : Nat)
    (step : Nat → σ → Except Fault σ)
    (hstep : ∀ i s s', 1 ≤ i → i ≤ N → P i s → step i s = .ok s' → P (i + 1) s')
    (e : Fault) :
    ∀ (m I : Nat) (state : σ), 1 ≤ I → I ≤ N → m = N - I → P I state →
      (static_recursion N I N step state).2 = .error e →
      ∃ i s, 1 ≤ i ∧ i ≤ N ∧ P i s ∧ step i s = .error e := by
  intro m
  induction m with
  | zero =>
    intro I state h1 h2 hm hP h
    have hI : I = N := by omega
    subst hI
    have hne : ¬ (I = 0 ∧ I = 1) := by omega
    rw [static_recursion] at h
    simp only [hne, if_false, if_true] at h
    exact ⟨I, state, h1, Nat.le_refl _, hP, h⟩
  | succ m ih =>
    intro I state h1 h2 hm hP h
    have hne : ¬ (N = 0 ∧ I = 1) := by omega
    have hne2 : ¬ (I = N) := by omega
    have hne3 : ¬ (I = 0 ∨ N < I) := by omega
    rw [static_recursion] at h
    simp only [hne, hne2, hne3, if_false] at h
    split at h
    · rename_i next hnext
      exact ih (I + 1) next (by omega) (by omega) (by omega)
        (hstep I state next h1 h2 hP hnext) h
    · rename_i e0 he
      cases h
      exact ⟨I, state, h1, h2, hP, he⟩

theorem tuple_convert_error (from_ : List slot_t.{u}) (to_ : dynamic_t) (e : Fault)
    (h : tuple.convert from_ to_ = .error e) :
    ∃ s ∈ from_, construct s.conv s.value = .error e := by
  unfold tuple.convert at h
  simp only [dynamic_t.assign, dynamic_t.as_array, array_reserve, bind_ok] at h
  rcases bind_eq_error _ _ e h with hl | ⟨a, _, ha⟩
  · rcases Nat.eq_zero_or_pos from_.length with h0 | hpos
    · rw [h0, copy_tuple_to_vector_zero] at hl
      cases hl
    · rw [copy_tuple_to_vector_erase from_ from_.length (from_.length + 1 - 1) 1 []
        (Nat.le_refl _)] at hl
      obtain ⟨i, s, hi1, hi2, _, hs⟩ := static_recursion_error (fun _ _ => True) from_.length
        (tuple.emplace_back_slot from_) (fun _ _ _ _ _ _ _ => True.intro) e
        (from_.length - 1) 1 [] (Nat.le_refl 1) hpos rfl True.intro hl
      have hlt : i - 1 < from_.length := by omega
      unfold tuple.emplace_back_slot at hs
      simp only [get_slot_of_le i from_ hi1 hlt] at hs
      exact ⟨from_[i - 1], List.getElem_mem hlt, emplace_back_error _ s _ e hs⟩
  · cases ha

theorem emplace_back_move_slot_set (I : Nat) (state next : array_t × List owned_slot_t.{u})
    (h : tuple.emplace_back_move_slot I state = .ok next) :
    ∃ s, next.2 = state.2.set (I - 1) s := by
  unfold tuple.emplace_back_move_slot at h
  split at h
  · split at h
    · cases h
      exact ⟨_, rfl⟩
    · cases h
  · cases h

/-- When the owned tuple conversion fails, the construction of one of the slots of
the source, not yet touched by the recursion, has failed. -/
theorem tuple_convert_move_error (from_ : List owned_slot_t.{u}) (to_ : dynamic_t)
    (e : Fault) (h : tuple.convert_move from_ to_ = .error e) :
    ∃ s ∈ from_, construct_move s.mconv s.value = .error e := by
  unfold tuple.convert_move at h
  simp only [dynamic_t.assign, dynamic_t.as_array, array_reserve] at h
  split at h
  · cases h
  · rename_i e0 hl
    cases h
    rcases Nat.eq_zero_or_pos from_.length with h0 | hpos
    · rw [h0, move_tuple_to_vector_zero] at hl
      cases hl
    · rw [move_tuple_to_vector_erase from_.length (from_.length + 1 - 1) 1 ([], from_)
        (Nat.le_refl _)] at hl
      obtain ⟨i, s, hi1, hi2, hP, hs⟩ := static_recursion_error
        (fun (k : Nat) (state : array_t × List owned_slot_t.{u}) =>
          state.2.length = from_.length ∧ ∀ j, k - 1 ≤ j → state.2[j]? = from_[j]?)
        from_.length tuple.emplace_back_move_slot
        (by
          intro i s s' hi1 _ hP hs
          obtain ⟨y, hy⟩ := emplace_back_move_slot_set i s s' hs
          refine ⟨by rw [hy, List.length_set]; exact hP.1, ?_⟩
          intro j hj
          rw [hy, List.getElem?_set_ne (by omega)]
          exact hP.2 j (by omega))
        _ (from_.length - 1) 1 ([], from_) (Nat.le_refl 1) hpos rfl
        ⟨rfl, fun _ _ => rfl⟩ hl
      have h0 : i ≠ 0 := by omega
      have hlt : i - 1 < from_.length := by omega
      have hlt2 : i - 1 < s.2.length := by rw [hP.1]; exact hlt
      have hsame : s.2[i - 1] = from_[i - 1] := by
        have h2 := hP.2 (i - 1) (Nat.le_refl _)
        rw [List.getElem?_eq_getElem hlt2, List.getElem?_eq_getElem hlt] at h2
        exact Option.some.inj h2
      unfold tuple.emplace_back_move_slot tuple.get_owned_slot at hs
      simp only [h0, if_false, List.getElem?_eq_getElem hlt2] at hs
      split at hs
      · cases hs
      · rename_i e1 he
        cases hs
        refine ⟨from_[i - 1], List.getElem_mem hlt, ?_⟩
        rw [← hsame]
        exact emplace_back_move_error _ _ _ _ he

theorem as_string_ok_iff (d : dynamic_t) :
    (∃ p, d.as_string = .ok p) ↔ d.active_kind = VariantKind.String := by
  cases d <;> refine ⟨fun h => ?_, fun h => ?_⟩ <;>
    first
    | rfl
    | exact ⟨_, rfl⟩
    | (obtain ⟨p, hp⟩ := h; cases hp)
    | cases h

theorem as_array_ok_iff (d : dynamic_t) :
    (∃ p, d.as_array = .ok p) ↔ d.active_kind = VariantKind.Array := by
  cases d <;> refine ⟨fun h => ?_, fun h => ?_⟩ <;>
    first
    | rfl
    | exact ⟨_, rfl⟩
    | (obtain ⟨p, hp⟩ := h; cases hp)
    | cases h

theorem as_object_ok_iff (d : dynamic_t) :
    (∃ p, d.as_object = .ok p) ↔ d.active_kind = VariantKind.Object := by
  cases d <;> refine ⟨fun h => ?_, fun h => ?_⟩ <;>
    first
    | rfl
    | exact ⟨_, rfl⟩
    | (obtain ⟨p, hp⟩ := h; cases hp)
    | cases h

/-- C14: the type-mismatch fault of the accessors cannot arise on the paths of the
rules.  An accessor succeeds exactly when the variant it names is active, and whatever
the prior state of the target, the state on which a rule calls `as_string`, `as_array`
or `as_object` has that variant active.  Hence the character buffer rule never fails,
and a fault of a sequence, native array, tuple or mapping conversion, for either
binding, is always the fault of the construction of one of the elements of the source,
never a fault of the accessor call of the rule itself; in particular the conversion of
an empty source never fails. -/
theorem C14_accessor_never_fails (to_ : dynamic_t) :
    ((∀ d : dynamic_t, (∃ p, d.as_string = .ok p) ↔ d.active_kind = VariantKind.String) ∧
      (∀ d : dynamic_t, (∃ p, d.as_array = .ok p) ↔ d.active_kind = VariantKind.Array) ∧
      (∀ d : dynamic_t, (∃ p, d.as_object = .ok p) ↔ d.active_kind = VariantKind.Object)) ∧
    ((to_.assign (dynamic_t.string [])).active_kind = VariantKind.String ∧
      (to_.assign (dynamic_t.string [])).as_string = .ok [] ∧
      (to_.assign (dynamic_t.array [])).active_kind = VariantKind.Array ∧
      (to_.assign (dynamic_t.array [])).as_array = .ok [] ∧
      (to_.assign (dynamic_t.object [])).active_kind = VariantKind.Object ∧
      (to_.assign (dynamic_t.object [])).as_object = .ok []) ∧
    (∀ (N : Nat) (b : List Char) (e : Fault), 1 ≤ N → b.length = N →
      char_array.convert N b to_ ≠ .error e) ∧
    (∀ (T : Type u) (conv : rule_t T) (mconv : move_rule_t T) (from_ : List T) (e : Fault),
      (vector.convert conv from_ to_ = .error e →
        ∃ x ∈ from_, construct conv x = .error e) ∧
      (native_array.convert from_.length conv from_ to_ = .error e →
        ∃ x ∈ from_, construct conv x = .error e) ∧
      (vector.convert_move mconv from_ to_ = .error e →
        ∃ x ∈ from_, construct_move mconv x = .error e) ∧
      (native_array.convert_move from_.length mconv from_ to_ = .error e →
        ∃ x ∈ from_, construct_move mconv x = .error e)) ∧
    (∀ (T : Type u) (conv : rule_t T) (mconv : move_rule_t T) (from_ : List (string_t × T))
      (e : Fault),
      (map.convert conv from_ to_ = .error e →
        ∃ it ∈ from_, construct conv it.2 = .error e) ∧
      (unordered_map.convert conv from_ to_ = .error e →
        ∃ it ∈ from_, construct conv it.2 = .error e) ∧
      (map.convert_move mconv from_ to_ = .error e →
        ∃ it ∈ from_, construct_move mconv it.2 = .error e) ∧
      (unordered_map.convert_move mconv from_ to_ = .error e →
        ∃ it ∈ from_, construct_move mconv it.2 = .error e)) ∧
    (∀ (from_ : List slot_t.{u}) (e : Fault), tuple.convert from_ to_ = .error e →
      ∃ s ∈ from_, construct s.conv s.value = .error e) ∧
    (∀ (from_ : List owned_slot_t.{u}) (e : Fault),
      tuple.convert_move from_ to_ = .error e →
      ∃ s ∈ from_, construct_move s.mconv s.value = .error e) := by
  refine ⟨⟨as_string_ok_iff, as_array_ok_iff, as_object_ok_iff⟩,
    ⟨rfl, rfl, rfl, rfl, rfl, rfl⟩, ?_, ?_, ?_, ?_, ?_⟩
  · intro N b e hN hb h
    rw [char_array_convert_eq N b to_ hN hb] at h
    cases h
  · intro T conv mconv from_ e
    exact ⟨vector_convert_error conv from_ to_ e, native_array_convert_error conv from_ to_ e,
      vector_convert_move_error mconv from_ to_ e,
      native_array_convert_move_error mconv from_ to_ e⟩
  · intro T conv mconv from_ e
    exact ⟨map_convert_error conv from_ to_ e, unordered_map_convert_error conv from_ to_ e,
      map_convert_move_error mconv from_ to_ e,
      unordered_map_convert_move_error mconv from_ to_ e⟩
  · intro from_ e
    exact tuple_convert_error from_ to_ e
  · intro from_ e
    exact tuple_convert_move_error from_ to_ e

/-- C14, witness: converting a sequence of sequences of signed integers into a target
that holds a `Bool` does not end in a type-mismatch fault. -/
theorem C14_accessor_never_fails_witness :
    vector.convert (vector.convert signed_integral.convert) [[1], [2, 3]] (dynamic_t.bool true)
      ≠ .error Fault.type_mismatch := by
  intro h
  obtain ⟨x, _, hx⟩ := ((C14_accessor_never_fails.{0} (dynamic_t.bool true)).2.2.2.1
    (List Int) (vector.convert signed_integral.convert)
    (vector.convert_move (by_value signed_integral.convert)) [[1], [2, 3]]
    Fault.type_mismatch).1 h
  obtain ⟨y, _, hy⟩ := ((C14_accessor_never_fails.{0} dynamic_t.null).2.2.2.1
    Int signed_integral.convert (by_value signed_integral.convert) x
    Fault.type_mismatch).1 hx
  cases hy

/-- C17, witness: a sequence of two unsigned integers converts to an `Array`. -/
theorem C17_no_null_no_bool_witness :
    ∃ d : dynamic_t,
      vector.convert unsigned_integral.convert [1, 2] dynamic_t.null = .ok d ∧
      d.active_kind = VariantKind.Array := by
  obtain ⟨d, hd⟩ := (C17_no_null_no_bool.{0}.2.2.2.2.2.1 Nat unsigned_integral.convert
    (by_value unsigned_integral.convert)).1.2 [1, 2] dynamic_t.null (fun _ _ => ⟨_, rfl⟩)
  exact ⟨d, hd, (C17_no_null_no_bool.{0}.2.2.2.2.2.1 Nat unsigned_integral.convert
    (by_value unsigned_integral.convert)).1.1 [1, 2] dynamic_t.null d hd⟩

end dynamic_constructor

end leonidia
